import Mathlib

/-!
Verification of the typanion runtime validation engine.

The definitions below are a shallow embedding of the TypeScript sources:

* `sources/internal/tools.ts` (pushError, makeSetter, makeCoercionFn,
  makeLazyCoercionFn),
* `sources/internal/format.ts` (getPrintable, getPrintableArray, computeKey,
  plural),
* `sources/predicates/typePredicates.ts` (isUnknown, isLiteral, isString,
  isEnum, isBoolean, isDate, isArray, isSet, isMap, isTuple, isRecord,
  isObject, isOneOf),
* `sources/predicates/helperPredicates.ts` (cascade),
* the cascading predicates file (hasExactLength, isHexColor).

JavaScript values are modelled by `Value`; mutable objects live in an explicit
`Heap` addressed by natural numbers, so that the coercion commit/revert
closures (which mutate object slots in place) can be represented faithfully.
JavaScript exceptions are modelled with `Except`.  A validator is a function
from a value, a validation state and a heap to a result carrying the boolean
outcome, the list of error messages appended to `state.errors`, the list of
coercion pairs appended to `state.coercions`, and the updated heap (this
delta representation is equivalent to the source's shared push-only arrays).

JavaScript numbers are modelled as either NaN or an integer.  Every concrete
number appearing in a theorem below is an integer whose arithmetic (including
the single `* 1000` scaling in `isDate`) is exact in IEEE-754 binary64, so on
every input actually used the integer model agrees with the runtime.
-/

namespace Typanion

/-- JavaScript numbers restricted to NaN and exact integers (see the header
comment: every number used by the theorems is exactly representable). -/
inductive JSNum where
  | nan : JSNum
  | int (n : Int) : JSNum
deriving DecidableEq, Repr

/-- JavaScript values.  Objects (plain objects, arrays, dates, sets, maps,
prototype-less objects, and the live getter/setter bag built by `isObject`)
are heap references.  Symbols are omitted; no theorem involves them. -/
inductive Value where
  | undefined : Value
  | null : Value
  | bool (b : Bool) : Value
  | num (n : JSNum) : Value
  | str (s : String) : Value
  | ref (a : Nat) : Value
deriving DecidableEq, Repr

/-- A property key: a string key or an array index. -/
inductive JsKey where
  | str (s : String) : JsKey
  | idx (i : Nat) : JsKey
deriving DecidableEq, Repr

/-- An entry of the `extra` bag built by `isObject`: the key, the captured
value returned by the getter (`get: () => sub`), and the write-through target
of the setter (`set: makeSetter(value, key)`). -/
structure BagEntry where
  key : String
  frozen : Value
  tgtAddr : Nat
  tgtKey : String
deriving DecidableEq, Repr

/-- Heap objects. -/
inductive Obj where
  | plain (fields : List (String × Value)) : Obj
  | arr (elems : List Value) : Obj
  | date (ms : JSNum) : Obj
  | set (elems : List Value) : Obj
  | map (entries : List (Value × Value)) : Obj
  | protoless (fields : List (String × Value)) : Obj
  | proxyBag (entries : List BagEntry) : Obj
deriving DecidableEq, Repr

/-- The heap: an association list of allocated objects plus the next fresh
address. -/
structure Heap where
  objs : List (Nat × Obj)
  next : Nat
deriving DecidableEq, Repr

def Heap.find (h : Heap) (a : Nat) : Option Obj :=
  (h.objs.find? (fun p => p.1 == a)).map Prod.snd

def Heap.alloc (h : Heap) (o : Obj) : Nat × Heap :=
  (h.next, ⟨h.objs ++ [(h.next, o)], h.next + 1⟩)

def Heap.update (h : Heap) (a : Nat) (o : Obj) : Heap :=
  ⟨h.objs.map (fun p => if p.1 == a then (a, o) else p), h.next⟩

/-- Reading the field of a plain-object field list; a missing property reads
as `undefined`. -/
def listGet (fields : List (String × Value)) (k : String) : Value :=
  match fields.find? (fun p => p.1 == k) with
  | some p => p.2
  | none => .undefined

/-- Writing a field of a plain-object field list (update in place, or append
a new own property). -/
def listSet (fields : List (String × Value)) (k : String) (v : Value) :
    List (String × Value) :=
  if fields.any (fun p => p.1 == k) then
    fields.map (fun p => if p.1 == k then (k, v) else p)
  else
    fields ++ [(k, v)]

/-- Writing an array element; writing past the end pads with `undefined` as
JavaScript does. -/
def setElem (es : List Value) (i : Nat) (v : Value) : List Value :=
  if i < es.length then es.set i v
  else es ++ List.replicate (i - es.length) .undefined ++ [v]

/-- A mutable slot: the pair (container, key) captured by `makeCoercionFn`
and `makeSetter`. -/
abbrev Slot := Nat × JsKey

/-- Reading `container[key]`. -/
def Heap.getSlot (h : Heap) (s : Slot) : Value :=
  match h.find s.1, s.2 with
  | some (.plain fs), .str k => listGet fs k
  | some (.protoless fs), .str k => listGet fs k
  | some (.arr es), .idx i => es.getD i .undefined
  | some (.proxyBag es), .str k =>
      match es.find? (fun e => e.key == k) with
      | some e => e.frozen
      | none => .undefined
  | _, _ => .undefined

/-- Writing `container[key] = v`.  For the `extra` bag of `isObject` the
write goes through `makeSetter(value, key)` to the underlying object while
the getter keeps returning the captured value, exactly as in the source. -/
def Heap.setSlot (h : Heap) (s : Slot) (v : Value) : Heap :=
  match h.find s.1, s.2 with
  | some (.plain fs), .str k => h.update s.1 (.plain (listSet fs k v))
  | some (.protoless fs), .str k => h.update s.1 (.protoless (listSet fs k v))
  | some (.arr es), .idx i => h.update s.1 (.arr (setElem es i v))
  | some (.proxyBag es), .str k =>
      match es.find? (fun e => e.key == k) with
      | some e =>
          match h.find e.tgtAddr with
          | some (.plain fs) => h.update e.tgtAddr (.plain (listSet fs e.tgtKey v))
          | some (.protoless fs) => h.update e.tgtAddr (.protoless (listSet fs e.tgtKey v))
          | _ => h
      | none => h
  | _, _ => h

/-- JavaScript strict equality (`===` / `!==`): NaN is different from
everything including itself; references compare by identity. -/
def jsStrictEq : Value → Value → Bool
  | .undefined, .undefined => true
  | .null, .null => true
  | .bool a, .bool b => a == b
  | .num (.int a), .num (.int b) => a == b
  | .num _, .num _ => false
  | .str a, .str b => a == b
  | .ref a, .ref b => a == b
  | _, _ => false

/-- SameValueZero, the equality used by `Set` and `Map`: like `===` except
that NaN equals NaN. -/
def svzEq : Value → Value → Bool
  | .num .nan, .num .nan => true
  | a, b => jsStrictEq a b

/-- Rendering of a number by JavaScript string conversion.  Integers in the
ranges used here render in plain decimal. -/
def JSNum.render : JSNum → String
  | .nan => "NaN"
  | .int n => toString n

/-- Model of the JSON string quoting performed by `JSON.stringify` on a
string; the escapes cover the characters appearing in this development. -/
def jsonQuoteChar (c : Char) : String :=
  if c = '"' then "\\\""
  else if c = '\\' then "\\\\"
  else if c = '\n' then "\\n"
  else String.singleton c

def jsonQuote (s : String) : String :=
  "\"" ++ String.join (s.toList.map jsonQuoteChar) ++ "\""

/-- Model of `JSON.stringify` restricted to the depth-one values whose
printable form the theorems below inspect (primitives; nested objects render
their first level only, which no theorem relies on). -/
def jsonStringifyLite (h : Heap) (v : Value) : String :=
  match v with
  | .undefined => "undefined"
  | .null => "null"
  | .bool b => if b then "true" else "false"
  | .num n => match n with
      | .nan => "null"
      | .int i => toString i
  | .str s => jsonQuote s
  | .ref a =>
      match h.find a with
      | some (.plain _) => "\x7b...\x7d"
      | some (.protoless _) => "\x7b...\x7d"
      | some (.proxyBag _) => "\x7b...\x7d"
      | some (.arr _) => "[...]"
      | some (.date _) => "\"<date>\""
      | some (.set _) => "\x7b\x7d"
      | some (.map _) => "\x7b\x7d"
      | none => "null"

/-- `getPrintable` from `internal/format.ts`. -/
def getPrintable (h : Heap) (v : Value) : String :=
  match v with
  | .null => "null"
  | .undefined => "undefined"
  | .str "" => "an empty string"
  | .ref a =>
      match h.find a with
      | some (.arr _) => "an array"
      | _ => jsonStringifyLite h v
  | v => jsonStringifyLite h v

/-- `plural` from `internal/format.ts`. -/
def plural (n : Nat) (singular other : String) : String :=
  if n = 1 then singular else other

def joinSep (sep : String) : List String → String
  | [] => ""
  | [s] => s
  | s :: rest => s ++ sep ++ joinSep sep rest

/-- `getPrintableArray` from `internal/format.ts`. -/
def getPrintableArray (h : Heap) (vs : List Value) (conjunction : String) : String :=
  match vs with
  | [] => "nothing"
  | [v] => getPrintable h v
  | _ =>
      let rest := vs.dropLast
      let trailing := vs.getLast?.getD .undefined
      let separator := if vs.length > 2 then ", " ++ conjunction ++ " " else " " ++ conjunction ++ " "
      joinSep ", " (rest.map (getPrintable h)) ++ separator ++ getPrintable h trailing

/-- The identifier test `^[a-zA-Z_][a-zA-Z0-9_]*$` of `computeKey`. -/
def simpleKeyTest (s : String) : Bool :=
  match s.toList with
  | [] => false
  | c :: rest =>
      (c.isAlpha || c = '_') && rest.all (fun d => d.isAlphanum || d = '_')

/-- `computeKey` from `internal/format.ts`: the update of the error path when
descending into a key or index. -/
def computeKey (p : Option String) (key : JsKey) : String :=
  match key with
  | .idx i => p.getD "." ++ "[" ++ toString i ++ "]"
  | .str s =>
      if simpleKeyTest s then p.getD "" ++ "." ++ s
      else p.getD "." ++ "[" ++ jsonQuote s ++ "]"

/-- JavaScript exceptions thrown by the embedded code. -/
inductive JSErr where
  | typeError (msg : String) : JSErr
deriving DecidableEq, Repr

/-- Model of the expression `Object.getPrototypeOf(value).toString()` used by
`isSet` and `isMap` to sniff the input kind.  `Object.getPrototypeOf` throws
a TypeError on `null` and `undefined`; on an object created with
`Object.create(null)` the prototype is `null`, so the `.toString()` call
throws.  The exact strings returned for non-Set/non-Map values model the
ECMAScript built-ins and only matter in that they differ from
`[object Set]` / `[object Map]`. -/
def protoToString (h : Heap) (v : Value) : Except JSErr String :=
  match v with
  | .null => .error (.typeError "Cannot convert undefined or null to object")
  | .undefined => .error (.typeError "Cannot convert undefined or null to object")
  | .bool _ => .ok "false"
  | .num _ => .ok "0"
  | .str _ => .ok ""
  | .ref a =>
      match h.find a with
      | some (.set _) => .ok "[object Set]"
      | some (.map _) => .ok "[object Map]"
      | some (.arr _) => .ok ""
      | some (.date _) => .ok "Invalid Date"
      | some (.protoless _) => .error (.typeError "Cannot read properties of null")
      | _ => .ok "[object Object]"

/-- A bound coercion closure, from `internal/tools.ts`.

`bound s v` is `makeCoercionFn(container, key).bind(null, v)`: invoking it
records the slot's current value, writes `v`, and hands back the closure for
the opposite direction (`makeCoercionFn(target, key).bind(null, previous)`).

`lazyFn commit s orig gen` is the commit/revert pair built by
`makeLazyCoercionFn(fn, orig, generator)` where `fn` is the binder of slot
`s`: the commit direction writes `generator()` (which may read the heap and
allocate), the revert direction writes `orig`, and each invocation returns
the closure for the opposite direction. -/
inductive BoundFn where
  | bound (s : Slot) (v : Value) : BoundFn
  | lazyFn (commit : Bool) (s : Slot) (orig : Value) (gen : Heap → Heap × Value) : BoundFn

/-- Invoking a bound coercion closure: returns the closure for the opposite
direction together with the updated heap (`makeCoercionFn` /
`makeLazyCoercionFn` from `internal/tools.ts`). -/
def applyCoercion : BoundFn → Heap → BoundFn × Heap
  | .bound s v, h =>
      let previous := h.getSlot s
      (.bound s previous, h.setSlot s v)
  | .lazyFn true s orig gen, h =>
      let g := gen h
      (.lazyFn false s orig gen, g.1.setSlot s g.2)
  | .lazyFn false s orig gen, h =>
      (.lazyFn true s orig gen, h.setSlot s orig)

/-- A coercion entry as stored in `state.coercions`: a path plus a bound
coercion closure (`Coercion = [string, BoundCoercionFn]` in `types.ts`). -/
abbrev Coercion := String × BoundFn

/-- Invoking every closure of a coercion list in order, collecting the
returned revert closures in the same order (the `reverts` loop of
`cascade`). -/
def applyAll : List Coercion → Heap → List BoundFn × Heap
  | [], h => ([], h)
  | c :: rest, h =>
      let r := applyCoercion c.2 h
      let rs := applyAll rest r.2
      (r.1 :: rs.1, rs.2)

/-- Invoking a list of bound closures in order (the `finally` loop of
`cascade`). -/
def applyAllB : List BoundFn → Heap → List BoundFn × Heap
  | [], h => ([], h)
  | c :: rest, h =>
      let r := applyCoercion c h
      let rs := applyAllB rest r.2
      (r.1 :: rs.1, rs.2)

/-- The validation state threaded through every validator call
(`ValidationState` in `types.ts`).  `p` is the current path; `coercion` is
the binder installed for the current slot (a `(container, key)` pair, since
every binder in the engine is a `makeCoercionFn` product); `errorsOn` and
`coercionsOn` record whether the shared `errors` / `coercions` arrays are
present.  The contents of those shared arrays are returned as deltas in
`RunOut`, which is equivalent because the engine only ever appends to
them. -/
structure Ctx where
  p : Option String
  coercion : Option Slot
  errorsOn : Bool
  coercionsOn : Bool
deriving DecidableEq, Repr

/-- The outcome of one validator call: the boolean result, the messages
appended to `state.errors`, the entries appended to `state.coercions`, and
the updated heap. -/
structure RunOut where
  ok : Bool
  errs : List String
  cos : List Coercion
  h : Heap

/-- A validator: `(value, state) => boolean`, with the heap made explicit
and exceptions modelled by `Except`. -/
abbrev V := Value → Ctx → Heap → Except JSErr RunOut

/-- `pushError` from `internal/tools.ts`: appends `"<path ?? '.'>: <message>"`
to `state.errors` when the sink is present and returns `false`.  Packaged
here as a full `RunOut` for use at validator return sites. -/
def pushError (ctx : Ctx) (msg : String) (h : Heap) : RunOut :=
  { ok := false
    errs := if ctx.errorsOn then [ctx.p.getD "." ++ ": " ++ msg] else []
    cos := []
    h := h }

/-- Template-literal rendering (`${value}`) for the primitive values that
reach it in the embedded code. -/
def jsInterp (v : Value) : String :=
  match v with
  | .undefined => "undefined"
  | .null => "null"
  | .bool b => if b then "true" else "false"
  | .num n => n.render
  | .str s => s
  | .ref _ => "[object Object]"

/-- `isUnknown` from `typePredicates.ts`. -/
def isUnknown : V := fun _ _ h => .ok ⟨true, [], [], h⟩

/-- `isLiteral` from `typePredicates.ts`: accepts exactly the values strictly
equal (`!==`) to the expected one. -/
def isLiteral (expected : Value) : V := fun value ctx h =>
  if jsStrictEq value expected then .ok ⟨true, [], [], h⟩
  else .ok (pushError ctx
    ("Expected " ++ getPrintable h expected ++ " (got " ++ getPrintable h value ++ ")") h)

/-- `isString` from `typePredicates.ts`. -/
def isString : V := fun value ctx h =>
  match value with
  | .str _ => .ok ⟨true, [], [], h⟩
  | _ => .ok (pushError ctx ("Expected a string (got " ++ getPrintable h value ++ ")") h)

/-- `new Set(valuesArray)`: SameValueZero deduplication keeping first
occurrences in insertion order. -/
def svzDedup (vs : List Value) : List Value :=
  vs.foldl (fun acc v => if acc.any (svzEq v) then acc else acc ++ [v]) []

/-- `isEnum` from `typePredicates.ts`, on the array-of-values form (the
dictionary form goes through `Object.values` and builds the same validator).
A singleton value set degrades to `isLiteral`; larger sets test membership
through the `Set`, i.e. with SameValueZero. -/
def isEnum (valuesArray : List Value) : V :=
  let isAlphaNum := valuesArray.all (fun item =>
    match item with
    | .str _ => true
    | .num _ => true
    | _ => false)
  let values := svzDedup valuesArray
  if values.length == 1 then isLiteral (values.headD .undefined)
  else fun value ctx h =>
    if values.any (svzEq value) then .ok ⟨true, [], [], h⟩
    else if isAlphaNum then
      .ok (pushError ctx
        ("Expected one of " ++ getPrintableArray h valuesArray "or" ++
         " (got " ++ getPrintable h value ++ ")") h)
    else
      .ok (pushError ctx
        ("Expected a valid enumeration value (got " ++ getPrintable h value ++ ")") h)

/-- The `BOOLEAN_COERCIONS` map of `typePredicates.ts` (`Map.get`, i.e.
SameValueZero key lookup). -/
def booleanCoercionsGet (v : Value) : Option Bool :=
  match v with
  | .str "true" => some true
  | .str "True" => some true
  | .str "1" => some true
  | .num (.int 1) => some true
  | .str "false" => some false
  | .str "False" => some false
  | .str "0" => some false
  | .num (.int 0) => some false
  | _ => none

/-- `isBoolean` from `typePredicates.ts`. -/
def isBoolean : V := fun value ctx h =>
  match value with
  | .bool _ => .ok ⟨true, [], [], h⟩
  | _ =>
    if ctx.coercionsOn then
      match ctx.coercion with
      | none => .ok (pushError ctx "Unbound coercion result" h)
      | some c =>
        match booleanCoercionsGet value with
        | some coercion =>
            .ok ⟨true, [], [(ctx.p.getD ".", .bound c (.bool coercion))], h⟩
        | none =>
            .ok (pushError ctx ("Expected a boolean (got " ++ getPrintable h value ++ ")") h)
    else
      .ok (pushError ctx ("Expected a boolean (got " ++ getPrintable h value ++ ")") h)

/-- `Number.isSafeInteger`. -/
def isSafeIntegerJS : JSNum → Bool
  | .nan => false
  | .int n => n.natAbs ≤ 9007199254740991

/-- The scaling `timestamp * 1000` of `isDate`.  On the integer fragment the
model is exact whenever the binary64 product is (in particular at every input
used by the theorems below). -/
def jsMul1000 : JSNum → JSNum
  | .nan => .nan
  | .int n => .int (n * 1000)

/-- `new Date(ms)`: the time value, clamped to the ±8.64e15 ms range outside
of which JavaScript produces an Invalid Date (time value NaN). -/
def dateFromMs (ms : JSNum) : JSNum :=
  match ms with
  | .nan => .nan
  | .int n => if n.natAbs ≤ 8640000000000000 then .int n else .nan

/-- Model of `JSON.parse` restricted to integer numerals, which is the only
fragment the theorems exercise (`isDate` feeds it stringified timestamps;
every theorem below reaches `isDate` with a `number` input instead). -/
def jsonParseNum (s : String) : Option JSNum :=
  match s.toList with
  | [] => none
  | '-' :: rest =>
      if rest ≠ [] && rest.all Char.isDigit then some (.int (-(String.mk rest).toNat!)) else none
  | l =>
      if l.all Char.isDigit then some (.int (String.mk l).toNat!) else none

/-- Restricted model of `iso8601RegExp` from `internal/regexps.ts`
(`YYYY-MM-DDTHH:MM(:SS)?Z` shapes only; no theorem evaluates it). -/
def iso8601Test (s : String) : Bool :=
  match s.toList with
  | y1 :: y2 :: y3 :: y4 :: '-' :: m1 :: m2 :: '-' :: d1 :: d2 :: 'T' ::
      h1 :: h2 :: ':' :: n1 :: n2 :: rest =>
      [y1, y2, y3, y4, m1, m2, d1, d2, h1, h2, n1, n2].all Char.isDigit &&
      ('1' ≤ y1) &&
      (match rest with
       | ['Z'] => true
       | ':' :: s1 :: s2 :: ['Z'] => [s1, s2].all Char.isDigit
       | _ => false)
  | _ => false

/-- Model of `new Date(isoString)` for strings accepted by `iso8601Test`
(never evaluated by a theorem): milliseconds from the calendar fields. -/
def isoToMs (s : String) : JSNum :=
  match s.toList with
  | y1 :: y2 :: y3 :: y4 :: '-' :: m1 :: m2 :: '-' :: d1 :: d2 :: 'T' ::
      h1 :: h2 :: ':' :: n1 :: n2 :: rest =>
      let digit := fun (c : Char) => (c.toNat - '0'.toNat : Int)
      let y := 1000 * digit y1 + 100 * digit y2 + 10 * digit y3 + digit y4
      let m := 10 * digit m1 + digit m2
      let d := 10 * digit d1 + digit d2
      let hh := 10 * digit h1 + digit h2
      let mi := 10 * digit n1 + digit n2
      let ss : Int := match rest with
        | ':' :: s1 :: s2 :: _ => 10 * digit s1 + digit s2
        | _ => 0
      let leapsBefore := fun (z : Int) => z / 4 - z / 100 + z / 400
      let monthDays : List Int := [0, 31, 59, 90, 120, 151, 181, 212, 243, 273, 304, 334]
      let isLeap := (y % 4 == 0 && y % 100 != 0) || y % 400 == 0
      let mdays := monthDays.getD (m - 1).toNat 0 + (if isLeap && m > 2 then 1 else 0)
      let days := 365 * (y - 1970) + (leapsBefore (y - 1) - leapsBefore 1969) + mdays + (d - 1)
      .int (((days * 24 + hh) * 60 + mi) * 60000 + ss * 1000)
  | _ => .nan

/-- `isDate` from `typePredicates.ts`.  Note the guard transcribed verbatim
from the source: the coercion is proposed when
`Number.isSafeInteger(timestamp) || !Number.isSafeInteger(timestamp * 1000)`
holds, and the dedicated unsafe-timestamp error is raised only otherwise. -/
def isDate : V := fun value ctx h =>
  match value, (match value with | .ref a => h.find a | _ => none) with
  | _, some (.date _) => .ok ⟨true, [], [], h⟩
  | value, _ =>
    if ctx.coercionsOn then
      match ctx.coercion with
      | none => .ok (pushError ctx "Unbound coercion result" h)
      | some c =>
        let isoHit := match value with
          | .str s => iso8601Test s
          | _ => false
        if isoHit then
          let ms := match value with
            | .str s => isoToMs s
            | _ => .nan
          let al := h.alloc (.date ms)
          .ok ⟨true, [], [(ctx.p.getD ".", .bound c (.ref al.1))], al.2⟩
        else
          let timestamp : Option JSNum := match value with
            | .str s => jsonParseNum s
            | .num n => some n
            | _ => none
          match timestamp with
          | some ts =>
              if isSafeIntegerJS ts || !isSafeIntegerJS (jsMul1000 ts) then
                let al := h.alloc (.date (dateFromMs (jsMul1000 ts)))
                .ok ⟨true, [], [(ctx.p.getD ".", .bound c (.ref al.1))], al.2⟩
              else
                .ok (pushError ctx
                  ("Received a timestamp that can't be safely represented by the runtime (" ++
                   jsInterp value ++ ")") h)
          | none =>
              .ok (pushError ctx ("Expected a date (got " ++ getPrintable h value ++ ")") h)
    else
      .ok (pushError ctx ("Expected a date (got " ++ getPrintable h value ++ ")") h)

/-- `Array.isArray`. -/
def isArrRef (h : Heap) (v : Value) : Bool :=
  match v with
  | .ref a =>
      match h.find a with
      | some (.arr _) => true
      | _ => false
  | _ => false

/-- The elements of an in-heap array. -/
def arrElems (h : Heap) (a : Nat) : List Value :=
  match h.find a with
  | some (.arr es) => es
  | _ => []

/-- `value.length`, defined for arrays and strings (`undefined` otherwise,
which `hasExactLength` compares and prints). -/
def jsLength (h : Heap) (v : Value) : Option Nat :=
  match v with
  | .str s => some s.length
  | .ref a =>
      match h.find a with
      | some (.arr es) => some es.length
      | _ => none
  | _ => none

/-- `hasExactLength` (cascading predicates): `value.length === length`. -/
def hasExactLength (length : Nat) : V := fun value ctx h =>
  match jsLength h value with
  | some len =>
      if len == length then .ok ⟨true, [], [], h⟩
      else .ok (pushError ctx
        ("Expected to have a length of exactly " ++ toString length ++
         " elements (got " ++ toString len ++ ")") h)
  | none =>
      .ok (pushError ctx
        ("Expected to have a length of exactly " ++ toString length ++
         " elements (got undefined)") h)

/-- The element loop of `isArray`: `for (let t = 0, T = value.length; t < T;
++t)` with `valid = spec(...) && valid` and the fast-fail `break` when the
error sink is absent.  `remaining` counts down from the length captured at
loop entry. -/
def arrayLoop (spec : V) (a : Nat) (ctx : Ctx) :
    Nat → Nat → Bool → Heap → Except JSErr RunOut
  | _, 0, valid, h => .ok ⟨valid, [], [], h⟩
  | t, remaining + 1, valid, h => do
      let out ← spec (h.getSlot (a, .idx t))
        { ctx with p := some (computeKey ctx.p (.idx t)), coercion := some (a, .idx t) } h
      let valid' := out.ok && valid
      if !valid' && !ctx.errorsOn then
        .ok ⟨valid', out.errs, out.cos, out.h⟩
      else do
        let rest ← arrayLoop spec a ctx (t + 1) remaining valid' out.h
        .ok ⟨rest.ok, out.errs ++ rest.errs, out.cos ++ rest.cos, rest.h⟩

/-- `Array.isArray(value)` dispatch, returning the address and elements of
the array when the test succeeds. -/
def findArr (h : Heap) (v : Value) : Option (Nat × List Value) :=
  match v with
  | .ref a =>
      match h.find a with
      | some (.arr es) => some (a, es)
      | _ => none
  | _ => none

/-- `isArray` from `typePredicates.ts`. -/
def isArray (spec : V) (delimiter : Option String) : V := fun value ctx h =>
  match value, delimiter with
  | .str s, some d =>
      if ctx.coercionsOn then
        match ctx.coercion with
        | none => .ok (pushError ctx "Unbound coercion result" h)
        | some c =>
            let al := h.alloc (.arr ((s.splitOn d).map Value.str))
            do
              let out ← arrayLoop spec al.1 ctx 0 (s.splitOn d).length true al.2
              -- value !== originalValue: the split array replaces the slot
              .ok ⟨out.ok, out.errs,
                   out.cos ++ [(ctx.p.getD ".", .bound c (.ref al.1))], out.h⟩
      else
        .ok (pushError ctx ("Expected an array (got " ++ getPrintable h value ++ ")") h)
  | value, _ =>
      match findArr h value with
      | some (a, es) => do
          let out ← arrayLoop spec a ctx 0 es.length true h
          .ok ⟨out.ok, out.errs, out.cos, out.h⟩
      | none =>
          .ok (pushError ctx ("Expected an array (got " ++ getPrintable h value ++ ")") h)

/-- The element loop of `isTuple`: `for (let t = 0, T = value.length;
t < T && t < spec.length; ++t)`, recursing structurally over the positional
sub-validators so that elements past `spec.length - 1` are never visited. -/
def tupleLoop (a : Nat) (ctx : Ctx) :
    List V → Nat → Nat → Bool → Heap → Except JSErr RunOut
  | [], _, _, valid, h => .ok ⟨valid, [], [], h⟩
  | _, _, 0, valid, h => .ok ⟨valid, [], [], h⟩
  | spec :: rest, t, remaining + 1, valid, h => do
      let out ← spec (h.getSlot (a, .idx t))
        { ctx with p := some (computeKey ctx.p (.idx t)), coercion := some (a, .idx t) } h
      let valid' := out.ok && valid
      if !valid' && !ctx.errorsOn then
        .ok ⟨valid', out.errs, out.cos, out.h⟩
      else do
        let restOut ← tupleLoop a ctx rest (t + 1) remaining valid' out.h
        .ok ⟨restOut.ok, out.errs ++ restOut.errs, out.cos ++ restOut.cos, restOut.h⟩

/-- `isTuple` from `typePredicates.ts`.  The length is checked by a
`hasExactLength` sub-call before the element loop. -/
def isTuple (specs : List V) (delimiter : Option String) : V := fun value ctx h =>
  match value, delimiter with
  | .str s, some d =>
      if ctx.coercionsOn then
        match ctx.coercion with
        | none => .ok (pushError ctx "Unbound coercion result" h)
        | some c =>
            let al := h.alloc (.arr ((s.splitOn d).map Value.str))
            do
              let lenOut ← hasExactLength specs.length (.ref al.1) ctx al.2
              let out ← tupleLoop al.1 ctx specs 0 (s.splitOn d).length lenOut.ok lenOut.h
              .ok ⟨out.ok, lenOut.errs ++ out.errs,
                   [(ctx.p.getD ".", .bound c (.ref al.1))] ++ lenOut.cos ++ out.cos, out.h⟩
      else
        .ok (pushError ctx ("Expected a tuple (got " ++ getPrintable h value ++ ")") h)
  | value, _ =>
      match findArr h value with
      | some (a, es) => do
          let lenOut ← hasExactLength specs.length (.ref a) ctx h
          let out ← tupleLoop a ctx specs 0 es.length lenOut.ok lenOut.h
          .ok ⟨out.ok, lenOut.errs ++ out.errs, lenOut.cos ++ out.cos, out.h⟩
      | none =>
          .ok (pushError ctx ("Expected a tuple (got " ++ getPrintable h value ++ ")") h)

/-- `Object.keys`. -/
def objKeys (h : Heap) (a : Nat) : List String :=
  match h.find a with
  | some (.plain fs) => fs.map Prod.fst
  | some (.protoless fs) => fs.map Prod.fst
  | some (.proxyBag es) => es.map BagEntry.key
  | some (.arr es) => (List.range es.length).map toString
  | _ => []

/-- `Object.prototype.hasOwnProperty.call(value, key)`. -/
def objHasOwn (h : Heap) (a : Nat) (k : String) : Bool :=
  (objKeys h a).contains k

/-- `Object.fromEntries` on an in-heap array of `[key, value]` pair arrays
(later duplicate keys overwrite in place, as repeated data-property
creation does). -/
def fromEntries (h : Heap) (a : Nat) : List (String × Value) :=
  (arrElems h a).foldl
    (fun acc pv =>
      match pv with
      | .ref pa =>
          let k := match h.getSlot (pa, .idx 0) with
            | .str s => s
            | v => jsInterp v
          listSet acc k (h.getSlot (pa, .idx 1))
      | _ => acc)
    []

/-- The guard `keySpec !== null && !keySpec(key, state)` of the `isRecord`
key loop, as a single call: an absent key validator accepts every key and
contributes nothing. -/
def keySpecRun (keySpec : Option V) (key : String) (ctx : Ctx) (h : Heap) :
    Except JSErr RunOut :=
  match keySpec with
  | some ks => ks (.str key) ctx h
  | none => .ok ⟨true, [], [], h⟩

/-- The key loop of `isRecord`: iterates `Object.keys(value)` while
`valid || state.errors != null` holds; `__proto__` and `constructor` fail
with the dedicated unsafe-property error; the optional key validator runs on
the key with the unmodified state, then the value validator runs with the
extended path and a binder on the value slot. -/
def recordLoop (spec : V) (keySpec : Option V) (a : Nat) (ctx : Ctx) :
    List String → Bool → Heap → Except JSErr RunOut
  | [], valid, h => .ok ⟨valid, [], [], h⟩
  | key :: rest, valid, h =>
      if !valid && !ctx.errorsOn then .ok ⟨valid, [], [], h⟩
      else
        if key == "__proto__" || key == "constructor" then
          let e := pushError { ctx with p := some (computeKey ctx.p (.str key)) }
            "Unsafe property name" h
          do
            let restOut ← recordLoop spec keySpec a ctx rest false h
            .ok ⟨restOut.ok, e.errs ++ restOut.errs, restOut.cos, restOut.h⟩
        else do
          let kOut ← keySpecRun keySpec key ctx h
          if !kOut.ok then do
            let restOut ← recordLoop spec keySpec a ctx rest false kOut.h
            .ok ⟨restOut.ok, kOut.errs ++ restOut.errs,
                 kOut.cos ++ restOut.cos, restOut.h⟩
          else do
            let vOut ← spec (h.getSlot (a, .str key))
              { ctx with p := some (computeKey ctx.p (.str key)),
                         coercion := some (a, .str key) } kOut.h
            let restOut ← recordLoop spec keySpec a ctx rest
              (if vOut.ok then valid else false) vOut.h
            .ok ⟨restOut.ok, kOut.errs ++ vOut.errs ++ restOut.errs,
                 kOut.cos ++ vOut.cos ++ restOut.cos, restOut.h⟩

/-- The non-null-object path of `isRecord`: the fall-through after (or in
the absence of) the array coercion branch. -/
def recordObjectPath (spec : V) (keySpec : Option V) : V := fun value ctx h =>
  match value with
  | .ref a => do
      let out ← recordLoop spec keySpec a ctx (objKeys h a) true h
      .ok out
  | _ =>
      .ok (pushError ctx ("Expected an object (got " ++ getPrintable h value ++ ")") h)

/-- `isRecord` from `typePredicates.ts`.  In coercion mode an array input is
validated as an array of `[key, value]` tuples and converted through
`Object.fromEntries`; otherwise the input must be a non-null object whose
keys are iterated by `recordLoop`. -/
def isRecord (spec : V) (keySpec : Option V) : V := fun value ctx h =>
  let isArrayValidator := isArray (isTuple [keySpec.getD isString, spec] none) none
  match findArr h value with
  | some (a, _) =>
      if ctx.coercionsOn then
        match ctx.coercion with
        | none => .ok (pushError ctx "Unbound coercion result" h)
        | some c => do
            let out ← isArrayValidator value { ctx with coercion := none } h
            if !out.ok then
              .ok ⟨false, out.errs, out.cos, out.h⟩
            else
              let al := out.h.alloc (.plain (fromEntries out.h a))
              .ok ⟨true, out.errs,
                   out.cos ++ [(ctx.p.getD ".", .bound c (.ref al.1))], al.2⟩
      else
        recordObjectPath spec keySpec value ctx h
  | none =>
      recordObjectPath spec keySpec value ctx h

/-- First-occurrence deduplication: `new Set([...specKeys,
...Object.keys(value)])` iterated in insertion order. -/
def dedupFirst (keys : List String) : List String :=
  keys.foldl (fun acc k => if acc.contains k then acc else acc ++ [k]) []

/-- The key loop of `isObject`: iterates the union of declared and actual
keys; unsafe names fail; declared keys validate against their sub-validator
with a binder on the slot; undeclared keys are either an extraneous-property
failure or collected into the `extra` bag (captured getter value plus
write-through setter target).  Stops early exactly when `valid` is false and
the error sink is absent. -/
def objectLoop (props : List (String × V)) (hasExtra : Bool) (a : Nat) (ctx : Ctx) :
    List String → Bool → List BagEntry → Heap → Except JSErr (RunOut × List BagEntry)
  | [], valid, bag, h => .ok (⟨valid, [], [], h⟩, bag)
  | key :: rest, valid, bag, h =>
      if !valid && !ctx.errorsOn then .ok (⟨valid, [], [], h⟩, bag)
      else
        if key == "constructor" || key == "__proto__" then
          let e := pushError { ctx with p := some (computeKey ctx.p (.str key)) }
            "Unsafe property name" h
          do
            let restOut ← objectLoop props hasExtra a ctx rest false bag h
            .ok (⟨restOut.1.ok, e.errs ++ restOut.1.errs, restOut.1.cos, restOut.1.h⟩,
                 restOut.2)
        else
          let declared := (props.find? (fun pr => pr.1 == key)).map Prod.snd
          let sub := if objHasOwn h a key then h.getSlot (a, .str key) else .undefined
          match declared with
          | some sp => do
              let out ← sp sub
                { ctx with p := some (computeKey ctx.p (.str key)),
                           coercion := some (a, .str key) } h
              let restOut ← objectLoop props hasExtra a ctx rest (out.ok && valid) bag out.h
              .ok (⟨restOut.1.ok, out.errs ++ restOut.1.errs,
                    out.cos ++ restOut.1.cos, restOut.1.h⟩, restOut.2)
          | none =>
              if hasExtra then do
                let restOut ← objectLoop props hasExtra a ctx rest valid
                  (bag ++ [⟨key, sub, a, key⟩]) h
                .ok restOut
              else
                let e := pushError { ctx with p := some (computeKey ctx.p (.str key)) }
                  ("Extraneous property (got " ++ getPrintable h sub ++ ")") h
                do
                  let restOut ← objectLoop props hasExtra a ctx rest false bag h
                  .ok (⟨restOut.1.ok, e.errs ++ restOut.1.errs, restOut.1.cos,
                        restOut.1.h⟩, restOut.2)

/-- `isObject` from `typePredicates.ts`.  The `extra` bag is allocated when
the extra validator is invoked (in the source the empty bag object is created
before the loop; the two points are indistinguishable because the bag has no
alias until that call). -/
def isObject (props : List (String × V)) (extraSpec : Option V) : V := fun value ctx h =>
  match value with
  | .ref a =>
      let specKeys := props.map Prod.fst
      let keys := dedupFirst (specKeys ++ objKeys h a)
      do
        let lp ← objectLoop props (extraSpec matches some _) a ctx keys true [] h
        let out := lp.1
        match extraSpec with
        | some es =>
            if out.ok || ctx.errorsOn then
              let al := out.h.alloc (.proxyBag lp.2)
              do
                let eOut ← es (.ref al.1) ctx al.2
                .ok ⟨eOut.ok && out.ok, out.errs ++ eOut.errs,
                     out.cos ++ eOut.cos, eOut.h⟩
            else
              .ok out
        | none => .ok out
  | _ =>
      .ok (pushError ctx ("Expected an object (got " ++ getPrintable h value ++ ")") h)

/-- The elements of an in-heap `Set` (`[...value]`). -/
def setElemsOf (h : Heap) (v : Value) : List Value :=
  match v with
  | .ref a =>
      match h.find a with
      | some (.set es) => es
      | _ => []
  | _ => []

/-- The entries of an in-heap `Map` (`[...value]`, before the per-entry pair
arrays are materialised). -/
def mapEntriesOf (h : Heap) (v : Value) : List (Value × Value)  :=
  match v with
  | .ref a =>
      match h.find a with
      | some (.map es) => es
      | _ => []
  | _ => []

/-- `new Map(pairs)`: later entries with a SameValueZero-equal key overwrite
the earlier value in place. -/
def mapFromPairs (ps : List (Value × Value)) : List (Value × Value) :=
  ps.foldl
    (fun acc kv =>
      if acc.any (fun e => svzEq e.1 kv.1) then
        acc.map (fun e => if svzEq e.1 kv.1 then (e.1, kv.2) else e)
      else acc ++ [kv])
    []

/-- The non-coercion element loop of `isSet`: `for (const subValue of value)`
with the state spread unchanged. -/
def setLoop (spec : V) (ctx : Ctx) : List Value → Bool → Heap → Except JSErr RunOut
  | [], valid, h => .ok ⟨valid, [], [], h⟩
  | subValue :: rest, valid, h => do
      let out ← spec subValue ctx h
      let valid' := out.ok && valid
      if !valid' && !ctx.errorsOn then
        .ok ⟨valid', out.errs, out.cos, out.h⟩
      else do
        let r ← setLoop spec ctx rest valid' out.h
        .ok ⟨r.ok, out.errs ++ r.errs, out.cos ++ r.cos, r.h⟩

/-- Allocation of the fresh array produced by spreading a `Set`
(`[...value]` used as `coercedValues`). -/
def allocArr (h : Heap) (es : List Value) : Nat × Heap :=
  h.alloc (.arr es)

/-- `isSet` from `typePredicates.ts`.  The first line models
`Object.getPrototypeOf(value).toString()`, which throws on `null`,
`undefined` and prototype-less objects. -/
def isSet (spec : V) (delimiter : Option String) : V := fun value ctx h => do
  let isArrayValidator := isArray spec delimiter
  let tag ← protoToString h value
  if tag == "[object Set]" then
    if ctx.coercionsOn then
      match ctx.coercion with
      | none => .ok (pushError ctx "Unbound coercion result" h)
      | some c =>
          let originalValues := setElemsOf h value
          let ca := allocArr h originalValues
          do
            let out ← isArrayValidator (.ref ca.1) { ctx with coercion := none } ca.2
            if !out.ok then
              .ok ⟨false, out.errs, out.cos, out.h⟩
            else
              let gen : Heap → Heap × Value := fun hh =>
                let coerced := arrElems hh ca.1
                if (coerced.zip originalValues).any (fun pr => !jsStrictEq pr.1 pr.2) then
                  let sa := hh.alloc (.set (svzDedup coerced))
                  (sa.2, .ref sa.1)
                else (hh, value)
              .ok ⟨true, out.errs,
                   out.cos ++ [(ctx.p.getD ".", .lazyFn true c value gen)], out.h⟩
    else do
      let out ← setLoop spec ctx (setElemsOf h value) true h
      .ok out
  else
    if ctx.coercionsOn then
      match ctx.coercion with
      | none => .ok (pushError ctx "Unbound coercion result" h)
      | some c =>
          let sal := h.alloc (.plain [("value", value)])
          do
            let out ← isArrayValidator value
              { ctx with coercion := some (sal.1, .str "value") } sal.2
            if !out.ok then
              .ok ⟨false, out.errs, out.cos, out.h⟩
            else
              let gen : Heap → Heap × Value := fun hh =>
                match hh.getSlot (sal.1, .str "value") with
                | .ref va =>
                    let sa := hh.alloc (.set (svzDedup (arrElems hh va)))
                    (sa.2, .ref sa.1)
                | v =>
                    let sa := hh.alloc (.set (svzDedup [v]))
                    (sa.2, .ref sa.1)
              .ok ⟨true, out.errs,
                   out.cos ++ [(ctx.p.getD ".", .lazyFn true c value gen)], out.h⟩
    else
      .ok (pushError ctx ("Expected a set (got " ++ getPrintable h value ++ ")") h)

/-- Conversion of a `Map` key to the path key fed to `computeKey`. -/
def valueToJsKey (v : Value) : JsKey :=
  match v with
  | .str s => .str s
  | .num (.int n) => if n < 0 then .str n.repr else .idx n.toNat
  | v => .str (jsInterp v)

/-- The non-coercion entry loop of `isMap`: key then value, each with its own
fast-fail break. -/
def mapLoop (keySpec valueSpec : V) (ctx : Ctx) :
    List (Value × Value) → Bool → Heap → Except JSErr RunOut
  | [], valid, h => .ok ⟨valid, [], [], h⟩
  | (key, subValue) :: rest, valid, h => do
      let kOut ← keySpec key ctx h
      let validK := kOut.ok && valid
      if !validK && !ctx.errorsOn then
        .ok ⟨validK, kOut.errs, kOut.cos, kOut.h⟩
      else do
        let vOut ← valueSpec subValue
          { ctx with p := some (computeKey ctx.p (valueToJsKey key)) } kOut.h
        let validV := vOut.ok && validK
        if !validV && !ctx.errorsOn then
          .ok ⟨validV, kOut.errs ++ vOut.errs, kOut.cos ++ vOut.cos, vOut.h⟩
        else do
          let r ← mapLoop keySpec valueSpec ctx rest validV vOut.h
          .ok ⟨r.ok, kOut.errs ++ vOut.errs ++ r.errs,
               kOut.cos ++ vOut.cos ++ r.cos, r.h⟩

/-- Materialising the pair arrays of a `Map` spread (`[...value]` turns every
entry into a fresh two-element array). -/
def allocPairs (h : Heap) : List (Value × Value) → List Value × Heap
  | [] => ([], h)
  | (k, v) :: rest =>
      let pa := h.alloc (.arr [k, v])
      let r := allocPairs pa.2 rest
      (.ref pa.1 :: r.1, r.2)

/-- Reading back the entries of an array of pair arrays (`new
Map(coercedValues)` / `new Map(store.value)`). -/
def readPairs (h : Heap) (a : Nat) : List (Value × Value) :=
  (arrElems h a).map (fun pv =>
    match pv with
    | .ref pa => (h.getSlot (pa, .idx 0), h.getSlot (pa, .idx 1))
    | v => (v, .undefined))

/-- `isMap` from `typePredicates.ts`. -/
def isMap (keySpec valueSpec : V) : V := fun value ctx h => do
  let isArrayValidator := isArray (isTuple [keySpec, valueSpec] none) none
  let isRecordValidator := isRecord valueSpec (some keySpec)
  let tag ← protoToString h value
  if tag == "[object Map]" then
    if ctx.coercionsOn then
      match ctx.coercion with
      | none => .ok (pushError ctx "Unbound coercion result" h)
      | some c =>
          let originalValues := mapEntriesOf h value
          let op := allocPairs h originalValues
          let cp := allocPairs op.2 originalValues
          let ca := cp.2.alloc (.arr cp.1)
          do
            let out ← isArrayValidator (.ref ca.1) { ctx with coercion := none } ca.2
            if !out.ok then
              .ok ⟨false, out.errs, out.cos, out.h⟩
            else
              let gen : Heap → Heap × Value := fun hh =>
                let coerced := readPairs hh ca.1
                if (coerced.zip originalValues).any
                    (fun pr => !jsStrictEq pr.1.1 pr.2.1 || !jsStrictEq pr.1.2 pr.2.2) then
                  let ma := hh.alloc (.map (mapFromPairs coerced))
                  (ma.2, .ref ma.1)
                else (hh, value)
              .ok ⟨true, out.errs,
                   out.cos ++ [(ctx.p.getD ".", .lazyFn true c value gen)], out.h⟩
    else do
      let out ← mapLoop keySpec valueSpec ctx (mapEntriesOf h value) true h
      .ok out
  else
    if ctx.coercionsOn then
      match ctx.coercion with
      | none => .ok (pushError ctx "Unbound coercion result" h)
      | some c =>
          let sal := h.alloc (.plain [("value", value)])
          if isArrRef h value then do
            let out ← isArrayValidator value { ctx with coercion := none } sal.2
            if !out.ok then
              .ok ⟨false, out.errs, out.cos, out.h⟩
            else
              let gen : Heap → Heap × Value := fun hh =>
                match hh.getSlot (sal.1, .str "value") with
                | .ref va =>
                    let ma := hh.alloc (.map (mapFromPairs (readPairs hh va)))
                    (ma.2, .ref ma.1)
                | _ =>
                    let ma := hh.alloc (.map [])
                    (ma.2, .ref ma.1)
              .ok ⟨true, out.errs,
                   out.cos ++ [(ctx.p.getD ".", .lazyFn true c value gen)], out.h⟩
          else do
            let out ← isRecordValidator value
              { ctx with coercion := some (sal.1, .str "value") } sal.2
            if !out.ok then
              .ok ⟨false, out.errs, out.cos, out.h⟩
            else
              let gen : Heap → Heap × Value := fun hh =>
                match hh.getSlot (sal.1, .str "value") with
                | .ref va =>
                    let entries := (match hh.find va with
                      | some (.plain fs) => fs.map (fun p => (Value.str p.1, p.2))
                      | some (.protoless fs) => fs.map (fun p => (Value.str p.1, p.2))
                      | _ => [])
                    let ma := hh.alloc (.map (mapFromPairs entries))
                    (ma.2, .ref ma.1)
                | _ =>
                    let ma := hh.alloc (.map [])
                    (ma.2, .ref ma.1)
              .ok ⟨true, out.errs,
                   out.cos ++ [(ctx.p.getD ".", .lazyFn true c value gen)], out.h⟩
    else
      .ok (pushError ctx ("Expected a map (got " ++ getPrintable h value ++ ")") h)

/-- JavaScript string conversion of a bound coercion closure, as it appears
inside the exclusive-mismatch message (`matches.join(', ')` stringifies each
`[tag, subCoercions]` pair, and `String` of a bound function produces this
fixed text). -/
def renderBoundFnJS : String := "function () \x7b [native code] \x7d"

/-- Rendering of one `matches` entry by `Array.prototype.join`: the tag, a
comma, then the stringified sub-coercion array (an `undefined` sub-coercion
list renders as the empty string). -/
def renderMatchEntry (e : String × Option (List Coercion)) : String :=
  e.1 ++ "," ++
    (match e.2 with
     | none => ""
     | some cs => joinSep "," (cs.map (fun c => c.1 ++ "," ++ renderBoundFnJS)))

/-- `matches.join(', ')`. -/
def renderMatches (ms : List (String × Option (List Coercion))) : String :=
  joinSep ", " (ms.map renderMatchEntry)

/-- The branch loop of `isOneOf`: every branch runs against fresh error and
coercion sub-sinks and a path suffixed `#<1-based index>`; without
`exclusive` the loop breaks at the first match.  Returns the `matches` list,
the `errorBuffer` (first error of each failing branch; a branch that failed
without a message contributes the JavaScript `undefined`, rendered
"undefined"), and the final heap. -/
def oneOfLoop (exclusive : Bool) (value : Value) (ctx : Ctx) :
    List V → Nat → Heap →
    Except JSErr (List (String × Option (List Coercion)) × List String × Heap)
  | [], _, h => .ok ([], [], h)
  | spec :: rest, t, h => do
      let out ← spec value { ctx with p := some (ctx.p.getD "." ++ "#" ++ toString t) } h
      if out.ok then
        let entry := ("#" ++ toString t, if ctx.coercionsOn then some out.cos else none)
        if !exclusive then .ok ([entry], [], out.h)
        else do
          let r ← oneOfLoop exclusive value ctx rest (t + 1) out.h
          .ok (entry :: r.1, r.2.1, r.2.2)
      else do
        let r ← oneOfLoop exclusive value ctx rest (t + 1) out.h
        .ok (r.1, (if ctx.errorsOn then [out.errs.headD "undefined"] else []) ++ r.2.1, r.2.2)

/-- `isOneOf` from `typePredicates.ts`. -/
def isOneOf (specs : List V) (exclusive : Bool) : V := fun value ctx h => do
  let r ← oneOfLoop exclusive value ctx specs 1 h
  let ms := r.1
  let buf := r.2.1
  let h' := r.2.2
  match ms with
  | [m] => .ok ⟨true, [], (m.2.getD []), h'⟩
  | _ =>
      if ms.length > 1 then
        .ok (pushError ctx
          ("Expected to match exactly a single predicate (matched " ++
           renderMatches ms ++ ")") h')
      else
        .ok ⟨false, buf, [], h'⟩

/-- The sequential execution of every branch of `isOneOf` (no break), used
to characterise the exclusive mode: branch `t` (1-based) runs on the heap
left by branch `t - 1`, with the `#t`-suffixed path and fresh sub-sinks. -/
def branchRuns (value : Value) (ctx : Ctx) :
    List V → Nat → Heap → Except JSErr (List RunOut)
  | [], _, _ => .ok []
  | spec :: rest, t, h => do
      let out ← spec value { ctx with p := some (ctx.p.getD "." ++ "#" ++ toString t) } h
      let others ← branchRuns value ctx rest (t + 1) out.h
      .ok (out :: others)

/-- The followup loop of `cascade`: `resolvedFollowups.every(spec =>
spec(context.value, state))` — each followup reads the (possibly
provisionally coerced) scratch slot afresh and runs with the unmodified
parent state. -/
def followupsRun (ctxA : Nat) (ctx : Ctx) : List V → Heap → Except JSErr RunOut
  | [], h => .ok ⟨true, [], [], h⟩
  | f :: rest, h => do
      let out ← f (h.getSlot (ctxA, .str "value")) ctx h
      if !out.ok then .ok ⟨false, out.errs, out.cos, out.h⟩
      else do
        let r ← followupsRun ctxA ctx rest out.h
        .ok ⟨r.ok, out.errs ++ r.errs, out.cos ++ r.cos, r.h⟩

/-- `cascade` from `helperPredicates.ts`.

A scratch one-slot box `{value}` is allocated; the lead spec runs with a
binder on that slot and a fresh sub-coercion list.  On success every proposed
sub-coercion is invoked (collecting the reverts), the parent rebinding and
the sub-coercions are pushed onto the parent coercion list, the followups run
on the provisionally committed value, and the `finally` block invokes the
reverts.  If a followup throws, the exception propagates (the source reverts
inside `finally` before rethrowing; the heap after an exception is not
carried by `Except`, and no theorem observes it). -/
def cascade (spec : V) (followups : List V) : V := fun value ctx h =>
  let al := h.alloc (.plain [("value", value)])
  let ctxA := al.1
  let subCoercion : Option Slot :=
    if ctx.coercionsOn then some (ctxA, .str "value") else none
  do
    let sOut ← spec value { ctx with coercion := subCoercion } al.2
    if !sOut.ok then
      .ok ⟨false, sOut.errs, [], sOut.h⟩
    else
      let ar := if ctx.coercionsOn then applyAll sOut.cos sOut.h else ([], sOut.h)
      let reverts := ar.1
      let h2 := ar.2
      let ctxVal := h2.getSlot (ctxA, .str "value")
      match (ctx.coercionsOn && !jsStrictEq ctxVal value : Bool), ctx.coercion with
      | true, none =>
          -- return pushError(state, `Unbound coercion result`) inside `try`:
          -- the `finally` reverts still run before the early return
          let e := pushError ctx "Unbound coercion result" h2
          let fin := applyAllB reverts h2
          .ok ⟨false, sOut.errs ++ e.errs, [], fin.2⟩
      | true, some c => do
          let fOut ← followupsRun ctxA ctx followups h2
          let fin := applyAllB reverts fOut.h
          .ok ⟨fOut.ok, sOut.errs ++ fOut.errs,
               ([(ctx.p.getD ".", .bound c ctxVal)] ++ sOut.cos) ++ fOut.cos, fin.2⟩
      | false, _ => do
          let fOut ← followupsRun ctxA ctx followups h2
          let fin := applyAllB reverts fOut.h
          .ok ⟨fOut.ok, sOut.errs ++ fOut.errs,
               (if ctx.coercionsOn then sOut.cos else []) ++ fOut.cos, fin.2⟩

/-- `isHexColor` (cascading predicates): transcribed verbatim — note that the
branch selection applies `colorStringRegExp` (the six-digit pattern) when
`alpha` is `true` and `colorStringAlphaRegExp` (six digits plus optional
alpha channel) when `alpha` is `false`. -/
def isHexDigitCI (c : Char) : Bool :=
  c.isDigit || ('a' ≤ c && c ≤ 'f') || ('A' ≤ c && c ≤ 'F')

/-- `colorStringRegExp = /^#[0-9a-f]{6}$/i`. -/
def colorStringTest (s : String) : Bool :=
  match s.toList with
  | '#' :: rest => rest.length == 6 && rest.all isHexDigitCI
  | _ => false

/-- `colorStringAlphaRegExp = /^#[0-9a-f]{6}([0-9a-f]{2})?$/i`. -/
def colorStringAlphaTest (s : String) : Bool :=
  match s.toList with
  | '#' :: rest => (rest.length == 6 || rest.length == 8) && rest.all isHexDigitCI
  | _ => false

/-- The string a tested value presents to `RegExp.test`. -/
def strVal (v : Value) : String := jsInterp v

def isHexColor (alpha : Bool) : V := fun value ctx h =>
  let res := if alpha then colorStringTest (strVal value)
             else colorStringAlphaTest (strVal value)
  if !res then
    .ok (pushError ctx
      ("Expected to be a valid hexadecimal color string (got " ++
       getPrintable h value ++ ")") h)
  else
    .ok ⟨true, [], [], h⟩

/-- An instrumentation validator (not part of the source): always succeeds
and records the path it was visited at, making the traversal of a composite
validator observable in its error delta. -/
def visitSpy : V := fun _ ctx h =>
  .ok ⟨true, ["visited " ++ ctx.p.getD "."], [], h⟩

/-- A slot a `makeCoercionFn` binder can faithfully write: an existing plain
or prototype-less object with a string key, or an array cell in range. -/
def ValidSlot (h : Heap) (s : Slot) : Prop :=
  (∃ fs k, s.2 = .str k ∧ h.find s.1 = some (.plain fs)) ∨
  (∃ fs k, s.2 = .str k ∧ h.find s.1 = some (.protoless fs)) ∨
  (∃ es i, s.2 = .idx i ∧ h.find s.1 = some (.arr es) ∧ i < es.length)

/-- The `matches` list accumulated by the exclusive `isOneOf` loop, computed
from the sequence of branch outcomes: one `[#index, subCoercions]` entry per
successful branch, in order. -/
def matchesOf (coOn : Bool) : Nat → List RunOut → List (String × Option (List Coercion))
  | _, [] => []
  | t, o :: rest =>
      (if o.ok then [("#" ++ toString t, if coOn then some o.cos else none)] else []) ++
      matchesOf coOn (t + 1) rest

/-- The `errorBuffer` accumulated by the `isOneOf` loop, computed from the
sequence of branch outcomes: the first error of each failing branch. -/
def bufOf (errOn : Bool) : List RunOut → List String
  | [] => []
  | o :: rest =>
      (if o.ok then [] else if errOn then [o.errs.headD "undefined"] else []) ++
      bufOf errOn rest

/-- The heap left by the last of a sequence of branch outcomes. -/
def lastHeap (h : Heap) : List RunOut → Heap
  | [] => h
  | o :: rest => lastHeap o.h rest

/-! ## Supporting lemmas -/

theorem find_update_of_found (h : Heap) (a : Nat) (o o' : Obj)
    (hf : h.find a = some o') : (h.update a o).find a = some o := by
  obtain ⟨objs, next⟩ := h
  simp only [Heap.find, Heap.update] at *
  induction objs with
  | nil => simp [List.find?] at hf
  | cons p rest ih =>
      by_cases hp : p.1 == a
      · simp [List.find?, hp]
      · have hp' : (p.1 == a) = false := by simpa using hp
        simp only [List.find?, hp'] at hf
        simpa [List.find?, hp'] using ih hf

theorem listGet_mapset (fs : List (String × Value)) (k : String) (v : Value)
    (hany : fs.any (fun p => p.1 == k) = true) :
    listGet (fs.map (fun p => if p.1 == k then (k, v) else p)) k = v := by
  induction fs with
  | nil => simp at hany
  | cons p rest ih =>
      by_cases hp : p.1 == k
      · simp [listGet, List.find?, hp]
      · have hp' : (p.1 == k) = false := by simpa using hp
        simp only [List.any_cons, hp', Bool.false_or] at hany
        simpa [listGet, List.find?, hp'] using ih hany

theorem listGet_append_new (fs : List (String × Value)) (k : String) (v : Value)
    (hany : fs.any (fun p => p.1 == k) = false) :
    listGet (fs ++ [(k, v)]) k = v := by
  induction fs with
  | nil => simp [listGet, List.find?]
  | cons p rest ih =>
      simp only [List.any_cons, Bool.or_eq_false_iff] at hany
      simp only [List.cons_append, listGet, List.find?, hany.1]
      simp only [listGet] at ih
      exact ih hany.2

theorem listGet_listSet (fs : List (String × Value)) (k : String) (v : Value) :
    listGet (listSet fs k v) k = v := by
  unfold listSet
  cases hany : fs.any (fun p => p.1 == k) with
  | true => simpa using listGet_mapset fs k v hany
  | false => simpa using listGet_append_new fs k v hany

theorem getD_set_self (es : List Value) (i : Nat) (v : Value) (hi : i < es.length) :
    (es.set i v).getD i .undefined = v := by
  induction es generalizing i with
  | nil => simp at hi
  | cons e rest ih =>
      cases i with
      | zero => simp [List.set, List.getD]
      | succ j =>
          simp only [List.set, List.getD, List.getElem?_cons_succ]
          have hj : j < rest.length := by simpa using hi
          simpa [List.getD] using ih j hj

theorem getSlot_setSlot_same (h : Heap) (s : Slot) (v : Value) (hs : ValidSlot h s) :
    (h.setSlot s v).getSlot s = v := by
  obtain ⟨a, k⟩ := s
  rcases hs with ⟨fs, k', hk, hf⟩ | ⟨fs, k', hk, hf⟩ | ⟨es, i, hk, hf, hi⟩
  · cases hk
    simp only [Heap.setSlot, hf, Heap.getSlot,
      find_update_of_found h a (.plain (listSet fs k' v)) _ hf]
    exact listGet_listSet fs k' v
  · cases hk
    simp only [Heap.setSlot, hf, Heap.getSlot,
      find_update_of_found h a (.protoless (listSet fs k' v)) _ hf]
    exact listGet_listSet fs k' v
  · cases hk
    simp only [Heap.setSlot, hf, Heap.getSlot, setElem, hi, if_pos,
      find_update_of_found h a (.arr (es.set i v)) _ hf]
    exact getD_set_self es i v hi

theorem validSlot_setSlot (h : Heap) (s : Slot) (v : Value) (hs : ValidSlot h s) :
    ValidSlot (h.setSlot s v) s := by
  obtain ⟨a, k⟩ := s
  rcases hs with ⟨fs, k', hk, hf⟩ | ⟨fs, k', hk, hf⟩ | ⟨es, i, hk, hf, hi⟩
  · cases hk
    exact Or.inl ⟨listSet fs k' v, k', rfl, by
      simp only [Heap.setSlot, hf]
      exact find_update_of_found h a _ _ hf⟩
  · cases hk
    exact Or.inr (Or.inl ⟨listSet fs k' v, k', rfl, by
      simp only [Heap.setSlot, hf]
      exact find_update_of_found h a _ _ hf⟩)
  · cases hk
    refine Or.inr (Or.inr ⟨es.set i v, i, rfl, ?_, by simpa using hi⟩)
    simp only [Heap.setSlot, hf, setElem, hi, if_pos]
    exact find_update_of_found h a _ _ hf

/-! ## Claim theorems -/

theorem jsStrictEq_nan_right (v : Value) : jsStrictEq v (.num .nan) = false := by
  cases v with
  | num n => cases n <;> rfl
  | undefined => rfl
  | null => rfl
  | bool b => rfl
  | str s => rfl
  | ref a => rfl

/-- Claim C8: invoking the binder produced by `makeCoercionFn(container, key)`
with the new value writes it into the slot and returns a closure that, when
invoked, restores the slot's exact original value and returns the forward
closure again, so successive invocations toggle the slot between the two
values. -/
theorem makeCoercionFn_toggle (h : Heap) (s : Slot) (v : Value)
    (hs : ValidSlot h s) :
    (applyCoercion (.bound s v) h).2.getSlot s = v ∧
    (applyCoercion (.bound s v) h).1 = .bound s (h.getSlot s) ∧
    (applyCoercion (applyCoercion (.bound s v) h).1
        (applyCoercion (.bound s v) h).2).2.getSlot s = h.getSlot s ∧
    (applyCoercion (applyCoercion (.bound s v) h).1
        (applyCoercion (.bound s v) h).2).1 = .bound s v ∧
    (applyCoercion
        (applyCoercion (applyCoercion (.bound s v) h).1
          (applyCoercion (.bound s v) h).2).1
        (applyCoercion (applyCoercion (.bound s v) h).1
          (applyCoercion (.bound s v) h).2).2).2.getSlot s = v := by
  have h1 : (applyCoercion (.bound s v) h).2 = h.setSlot s v := rfl
  have h1' : (applyCoercion (.bound s v) h).1 = .bound s (h.getSlot s) := rfl
  have hs1 : ValidSlot (h.setSlot s v) s := validSlot_setSlot h s v hs
  have hget1 : (h.setSlot s v).getSlot s = v := getSlot_setSlot_same h s v hs
  refine ⟨by rw [h1]; exact hget1, h1', ?_, ?_, ?_⟩
  · rw [h1', h1]
    show ((h.setSlot s v).setSlot s (h.getSlot s)).getSlot s = h.getSlot s
    exact getSlot_setSlot_same _ s _ hs1
  · rw [h1', h1]
    show BoundFn.bound s ((h.setSlot s v).getSlot s) = .bound s v
    rw [hget1]
  · rw [h1', h1]
    show ((((h.setSlot s v).setSlot s (h.getSlot s))).setSlot s
        (((h.setSlot s v)).getSlot s)).getSlot s = v
    rw [hget1]
    exact getSlot_setSlot_same _ s _ (validSlot_setSlot _ s _ hs1)

/-- Witness for C8 at a concrete heap, slot and value. -/
theorem makeCoercionFn_toggle_witness :
    ValidSlot ⟨[(0, .plain [("k", .str "old")])], 1⟩ (0, .str "k") ∧
    (applyCoercion (.bound (0, .str "k") (.str "new"))
        ⟨[(0, .plain [("k", .str "old")])], 1⟩).2.getSlot (0, .str "k") = .str "new" := by
  have hv : ValidSlot ⟨[(0, .plain [("k", .str "old")])], 1⟩ (0, .str "k") :=
    Or.inl ⟨[("k", .str "old")], "k", rfl, rfl⟩
  exact ⟨hv, (makeCoercionFn_toggle _ _ _ hv).1⟩

/-- Claim C3 (failing input): `isSet` and `isMap` evaluate
`Object.getPrototypeOf(value).toString()` before anything else, so on `null`
(and `undefined`, and prototype-less objects) they throw a TypeError instead
of returning `false`. -/
theorem isSet_isMap_throw_on_null :
    isSet isUnknown none .null ⟨none, none, true, false⟩ ⟨[], 0⟩ =
      .error (.typeError "Cannot convert undefined or null to object") ∧
    isMap isUnknown isUnknown .null ⟨none, none, true, false⟩ ⟨[], 0⟩ =
      .error (.typeError "Cannot convert undefined or null to object") ∧
    isSet isUnknown none .undefined ⟨none, none, true, false⟩ ⟨[], 0⟩ =
      .error (.typeError "Cannot convert undefined or null to object") ∧
    isSet isUnknown none (.ref 0) ⟨none, none, true, false⟩
        ⟨[(0, .protoless [("a", .str "b")])], 1⟩ =
      .error (.typeError "Cannot read properties of null") := by
  exact ⟨rfl, rfl, rfl, rfl⟩

/-- Claim C4 (failing input): at `timestamp = 2^52` (a safe integer whose
scaled value `2^52 * 1000` is not), `isDate` proposes the coercion and
returns `true` — the guard `isSafeInteger(ts) || !isSafeInteger(ts * 1000)`
accepts it even though the scaled value is not safely representable, where
the spec demands the dedicated unsafe-timestamp error. -/
theorem isDate_accepts_oversized_scaled_timestamp :
    isSafeIntegerJS (.int 4503599627370496) = true ∧
    isSafeIntegerJS (jsMul1000 (.int 4503599627370496)) = false ∧
    (isDate (.num (.int 4503599627370496)) ⟨none, some (0, .str "v"), true, true⟩
        ⟨[(0, .plain [("v", .num (.int 4503599627370496))])], 1⟩).map
      (fun r => (r.ok, r.errs, r.cos.length)) = .ok (true, [], 1) := by
  refine ⟨by decide, by decide, rfl⟩

/-- Claim C5 (failing input): `isHexColor` applies the six-digit pattern when
`alpha: true` and the six-plus-alpha pattern when `alpha: false`, the
inverse of its documented behaviour: the eight-digit colour `#11223344` is
rejected with `alpha: true` and accepted with `alpha: false`. -/
theorem isHexColor_alpha_branches_inverted :
    (isHexColor true (.str "#11223344") ⟨none, none, true, false⟩ ⟨[], 0⟩).map
      (fun r => r.ok) = .ok false ∧
    (isHexColor false (.str "#11223344") ⟨none, none, true, false⟩ ⟨[], 0⟩).map
      (fun r => r.ok) = .ok true ∧
    (isHexColor true (.str "#112233") ⟨none, none, true, false⟩ ⟨[], 0⟩).map
      (fun r => r.ok) = .ok true ∧
    (isHexColor false (.str "#112233") ⟨none, none, true, false⟩ ⟨[], 0⟩).map
      (fun r => r.ok) = .ok true := by
  exact ⟨rfl, rfl, rfl, rfl⟩

/-- Claim C7 (failing input): with the aliased input `[x, x]` where
`x = {a: "true"}`, the validator
`cascade(isArray(isObject({a: isBoolean()})), [isLiteral(null)])` in coercion
mode provisionally commits the two proposed coercions for the shared slot
`x.a` and then reverts them in the same (forward) order, which re-applies the
first commit: the call returns `false` with `x.a === true`, mutating the
input although no caller ever invoked the returned coercions. -/
theorem cascade_aliased_input_mutated_after_failure :
    (⟨[(0, .plain [("a", .str "true")]), (1, .arr [.ref 0, .ref 0])], 2⟩ : Heap).getSlot
        (0, .str "a") = .str "true" ∧
    (cascade (isArray (isObject [("a", isBoolean)] none) none) [isLiteral .null]
        (.ref 1) ⟨none, none, true, true⟩
        ⟨[(0, .plain [("a", .str "true")]), (1, .arr [.ref 0, .ref 0])], 2⟩).map
      (fun r => (r.ok, r.h.getSlot (0, .str "a"))) = .ok (false, .bool true) := by
  exact ⟨rfl, rfl⟩

/-- Claim C1 (counterexample): with the lead spec `isBoolean` succeeding
through a coercion and the followup `isLiteral(false)` failing, `cascade`
still leaves two entries on the parent coercion list (the parent-slot
rebinding and the lead's sub-coercion), refuting "if any followup fails, the
parent coercions list is left as it was". -/
theorem cascade_followup_failure_keeps_pushed_coercions :
    (cascade isBoolean [isLiteral (.bool false)] (.str "true")
        ⟨none, some (0, .str "v"), true, true⟩
        ⟨[(0, .plain [("v", .str "true")])], 1⟩).map
      (fun r => (r.ok, r.errs, r.cos.length, r.h.getSlot (0, .str "v"))) =
    .ok (false, [".: Expected false (got true)"], 2, .str "true") := by
  exact rfl

/-- Claim C2 (counterexample): in coercion mode `isRecord` validates an array
input as `[key, value]` pairs and converts it with `Object.fromEntries`
without the unsafe-property-name guard, so `[["__proto__", "x"]]` is accepted
and the proposed coerced object carries an own `__proto__` key. -/
theorem isRecord_pairs_path_skips_guard :
    (isRecord isString none (.ref 0) ⟨none, some (5, .str "zz"), true, true⟩
        ⟨[(0, .arr [.ref 1]), (1, .arr [.str "__proto__", .str "x"])], 2⟩).map
      (fun r => (r.ok, r.errs, r.h.find 2)) =
    .ok (true, [], some (.plain [("__proto__", .str "x")])) := by
  exact rfl

/-- Claim C10: `isLiteral(NaN)` rejects every value, NaN itself included,
because membership is decided by strict inequality; `isEnum([NaN])` degrades
the singleton set to that same `isLiteral` and also rejects NaN, whereas the
Set-based membership used for larger enumerations (SameValueZero) accepts it,
as `isEnum([NaN, 1])` shows. -/
theorem isLiteral_nan_rejects_all :
    (∀ (v : Value) (ctx : Ctx) (h : Heap),
        (isLiteral (.num .nan) v ctx h).map (fun r => r.ok) = .ok false) ∧
    (∀ (v : Value) (ctx : Ctx) (h : Heap),
        (isEnum [.num .nan] v ctx h).map (fun r => r.ok) = .ok false) ∧
    (∀ (ctx : Ctx) (h : Heap),
        (isEnum [.num .nan, .num (.int 1)] (.num .nan) ctx h).map
          (fun r => r.ok) = .ok true) := by
  have hlit : ∀ (v : Value) (ctx : Ctx) (h : Heap),
      (isLiteral (.num .nan) v ctx h).map (fun r => r.ok) = .ok false := by
    intro v ctx h
    unfold isLiteral
    rw [jsStrictEq_nan_right v]
    rfl
  refine ⟨hlit, ?_, ?_⟩
  · intro v ctx h
    have henum : isEnum [.num .nan] = isLiteral (.num .nan) := rfl
    rw [henum]
    exact hlit v ctx h
  · intro ctx h
    rfl

theorem tupleLoop_ok_false (a : Nat) (ctx : Ctx) :
    ∀ (specs : List V) (t r : Nat) (h : Heap) (out : RunOut),
      tupleLoop a ctx specs t r false h = .ok out → out.ok = false := by
  intro specs
  induction specs with
  | nil =>
      intro t r h out heq
      simp only [tupleLoop] at heq
      cases heq
      rfl
  | cons spec rest ih =>
      intro t r h out heq
      cases r with
      | zero =>
          simp only [tupleLoop] at heq
          cases heq
          rfl
      | succ r' =>
          simp only [tupleLoop] at heq
          cases hspec : spec (h.getSlot (a, .idx t))
              { ctx with p := some (computeKey ctx.p (.idx t)),
                         coercion := some (a, .idx t) } h with
          | error e =>
              rw [hspec] at heq
              simp [Bind.bind, Except.bind] at heq
          | ok o =>
              rw [hspec] at heq
              simp only [Bind.bind, Except.bind, Bool.and_false] at heq
              by_cases hE : ctx.errorsOn
              · simp only [hE, Bool.not_true, Bool.and_false, Bool.false_eq_true,
                  if_false] at heq
                cases hloop : tupleLoop a ctx rest (t + 1) r' false o.h with
                | error e => rw [hloop] at heq; simp [Bind.bind, Except.bind] at heq
                | ok ro =>
                    rw [hloop] at heq
                    simp only [Bind.bind, Except.bind] at heq
                    cases heq
                    exact ih (t + 1) r' o.h ro hloop
              · have hE' : ctx.errorsOn = false := by simpa using hE
                simp only [hE', Bool.not_false, Bool.not_true, Bool.and_true] at heq
                cases heq
                rfl

theorem tupleLoop_spy (a : Nat) (ctx : Ctx) (hE : ctx.errorsOn = true) :
    ∀ (n t r : Nat) (h : Heap), n ≤ r →
      tupleLoop a ctx (List.replicate n visitSpy) t r false h =
        .ok ⟨false, (List.range' t n).map
          (fun i => "visited " ++ computeKey ctx.p (.idx i)), [], h⟩ := by
  intro n
  induction n with
  | zero =>
      intro t r h _
      simp [tupleLoop, List.range']
  | succ n' ih =>
      intro t r h hn
      cases r with
      | zero => omega
      | succ r' =>
          rw [List.replicate_succ]
          simp only [tupleLoop, visitSpy, Bind.bind, Except.bind, Bool.and_false, hE,
            Bool.not_true, Bool.and_false, Bool.false_eq_true, if_false]
          rw [ih (t + 1) r' h (by omega)]
          simp [List.range']

/-- Claim C9: `isTuple(specs)` rejects any array whose length differs from
`specs.length`, reporting the exact-length error first, even when every
element in range satisfies its positional sub-validator; and the element loop
visits exactly the indices `0 .. specs.length - 1` when the array is longer
(shown with the always-true instrumentation validator `visitSpy`, whose visit
markers cover exactly those indices while the result is still `false`). -/
theorem isTuple_exact_length_and_no_extra_visits :
    (∀ (specs : List V) (ctx : Ctx) (h : Heap) (a : Nat) (es : List Value),
      h.find a = some (.arr es) → es.length ≠ specs.length →
      ∀ out, isTuple specs none (.ref a) ctx h = .ok out →
        out.ok = false ∧
        (ctx.errorsOn = true →
          out.errs.head? = some (ctx.p.getD "." ++ ": " ++
            ("Expected to have a length of exactly " ++ toString specs.length ++
             " elements (got " ++ toString es.length ++ ")")))) ∧
    (∀ (n : Nat) (ctx : Ctx) (h : Heap) (a : Nat) (es : List Value),
      h.find a = some (.arr es) → n < es.length → ctx.errorsOn = true →
      isTuple (List.replicate n visitSpy) none (.ref a) ctx h =
        .ok ⟨false,
          (ctx.p.getD "." ++ ": " ++
            ("Expected to have a length of exactly " ++ toString n ++
             " elements (got " ++ toString es.length ++ ")")) ::
          (List.range' 0 n).map (fun i => "visited " ++ computeKey ctx.p (.idx i)),
          [], h⟩) := by
  constructor
  · intro specs ctx h a es hfind hne out heq
    have hlen : (es.length == specs.length) = false := by
      simpa using hne
    simp only [isTuple, findArr, hfind, hasExactLength, jsLength, hlen,
      Bool.false_eq_true, if_false, pushError, Bind.bind, Except.bind] at heq
    cases hloop : tupleLoop a ctx specs 0 es.length false h with
    | error e => rw [hloop] at heq; simp at heq
    | ok ro =>
        rw [hloop] at heq
        simp only [] at heq
        cases heq
        refine ⟨tupleLoop_ok_false a ctx specs 0 es.length h ro hloop, ?_⟩
        intro hE
        simp [hE]
  · intro n ctx h a es hfind hn hE
    have hlen : (es.length == n) = false := by
      simpa using Nat.ne_of_gt hn
    simp only [isTuple, findArr, hfind, hasExactLength, jsLength, List.length_replicate,
      hlen, Bool.false_eq_true, if_false, pushError, Bind.bind, Except.bind]
    rw [tupleLoop_spy a ctx hE n 0 es.length h (Nat.le_of_lt hn)]
    simp [hE]

/-- Witness for C9: a two-element array against a one-spec tuple. -/
theorem isTuple_exact_length_and_no_extra_visits_witness :
    (∃ out, isTuple [isString] none (.ref 0) ⟨none, none, true, false⟩
        ⟨[(0, .arr [.str "x", .str "y"])], 1⟩ = .ok out ∧ out.ok = false) ∧
    isTuple (List.replicate 1 visitSpy) none (.ref 0) ⟨none, none, true, false⟩
        ⟨[(0, .arr [.str "x", .str "y"])], 1⟩ =
      .ok ⟨false,
        [".: Expected to have a length of exactly 1 elements (got 2)",
         "visited .[0]"], [], ⟨[(0, .arr [.str "x", .str "y"])], 1⟩⟩ := by
  constructor
  · refine ⟨⟨false, [".: Expected to have a length of exactly 1 elements (got 2)"],
      [], ⟨[(0, .arr [.str "x", .str "y"])], 1⟩⟩, rfl, ?_⟩
    exact (isTuple_exact_length_and_no_extra_visits.1 [isString]
      ⟨none, none, true, false⟩ ⟨[(0, .arr [.str "x", .str "y"])], 1⟩ 0
      [.str "x", .str "y"] rfl (by decide) _ rfl).1
  · exact isTuple_exact_length_and_no_extra_visits.2 1
      ⟨none, none, true, false⟩ ⟨[(0, .arr [.str "x", .str "y"])], 1⟩ 0
      [.str "x", .str "y"] rfl (by decide) rfl

theorem recordLoop_ok_false (spec : V) (keySpec : Option V) (a : Nat) (ctx : Ctx) :
    ∀ (keys : List String) (h : Heap) (out : RunOut),
      recordLoop spec keySpec a ctx keys false h = .ok out → out.ok = false := by
  intro keys
  induction keys with
  | nil =>
      intro h out heq
      simp only [recordLoop] at heq
      cases heq
      rfl
  | cons key rest ih =>
      intro h out heq
      simp only [recordLoop, Bool.not_false, Bool.true_and] at heq
      by_cases hE : ctx.errorsOn
      · rw [if_neg (by simp [hE])] at heq
        by_cases hk : (key == "__proto__" || key == "constructor") = true
        · rw [if_pos hk] at heq
          cases hrest : recordLoop spec keySpec a ctx rest false h with
          | error e => rw [hrest] at heq; simp [Bind.bind, Except.bind] at heq
          | ok ro =>
              rw [hrest] at heq
              simp only [Bind.bind, Except.bind] at heq
              cases heq
              exact ih h ro hrest
        · rw [if_neg hk] at heq
          cases hks : keySpecRun keySpec key ctx h with
          | error e => rw [hks] at heq; simp [Bind.bind, Except.bind] at heq
          | ok ko =>
              rw [hks] at heq
              simp only [Bind.bind, Except.bind] at heq
              by_cases hko : ko.ok
              · simp only [hko, Bool.not_true, Bool.false_eq_true, if_false] at heq
                cases hv : spec (h.getSlot (a, .str key))
                    { ctx with p := some (computeKey ctx.p (.str key)),
                               coercion := some (a, .str key) } ko.h with
                | error e => rw [hv] at heq; simp [Bind.bind, Except.bind] at heq
                | ok vo =>
                    rw [hv] at heq
                    simp only [Bind.bind, Except.bind] at heq
                    cases hrest : recordLoop spec keySpec a ctx rest
                        (if vo.ok then false else false) vo.h with
                    | error e => rw [hrest] at heq; simp [Bind.bind, Except.bind] at heq
                    | ok ro =>
                        rw [hrest] at heq
                        simp only [Bind.bind, Except.bind] at heq
                        cases heq
                        have hrest' : recordLoop spec keySpec a ctx rest false vo.h =
                            .ok ro := by
                          cases hvo : vo.ok <;> simpa [hvo] using hrest
                        exact ih vo.h ro hrest'
              · have hko' : ko.ok = false := by simpa using hko
                simp only [hko', Bool.not_false, if_true] at heq
                cases hrest : recordLoop spec keySpec a ctx rest false ko.h with
                | error e => rw [hrest] at heq; simp [Bind.bind, Except.bind] at heq
                | ok ro =>
                    rw [hrest] at heq
                    simp only [Bind.bind, Except.bind] at heq
                    cases heq
                    exact ih ko.h ro hrest
      · have hE' : ctx.errorsOn = false := by simpa using hE
        rw [if_pos (by simp [hE'])] at heq
        cases heq
        rfl

theorem recordLoop_guardedKey (spec : V) (keySpec : Option V) (a : Nat) (ctx : Ctx)
    (key : String) (hkey : key = "__proto__" ∨ key = "constructor") :
    ∀ (keys : List String), key ∈ keys →
      ∀ (valid : Bool) (h : Heap) (out : RunOut),
        recordLoop spec keySpec a ctx keys valid h = .ok out →
        out.ok = false ∧
        (ctx.errorsOn = true →
          (computeKey ctx.p (.str key) ++ ": " ++ "Unsafe property name") ∈ out.errs) := by
  have hkeyBeq : (key == "__proto__" || key == "constructor") = true := by
    rcases hkey with hk | hk <;> simp [hk]
  intro keys
  induction keys with
  | nil => intro hmem; simp at hmem
  | cons k rest ih =>
      intro hmem valid h out heq
      simp only [recordLoop] at heq
      by_cases hstop : (!valid && !ctx.errorsOn) = true
      · rw [if_pos hstop] at heq
        cases heq
        have hval : valid = false := by
          cases hv : valid
          · rfl
          · rw [hv] at hstop; simp at hstop
        have hEoff : ctx.errorsOn = false := by
          cases hEc : ctx.errorsOn
          · rfl
          · rw [hEc] at hstop; simp at hstop
        exact ⟨hval, by intro hEc; rw [hEc] at hEoff; cases hEoff⟩
      · rw [if_neg hstop] at heq
        by_cases hk : (k == "__proto__" || k == "constructor") = true
        · rw [if_pos hk] at heq
          cases hrest : recordLoop spec keySpec a ctx rest false h with
          | error e => rw [hrest] at heq; simp [Bind.bind, Except.bind] at heq
          | ok ro =>
              rw [hrest] at heq
              simp only [Bind.bind, Except.bind] at heq
              cases heq
              refine ⟨recordLoop_ok_false spec keySpec a ctx rest h ro hrest, ?_⟩
              intro hEc
              by_cases hkk : k = key
              · subst hkk
                simp only [pushError, hEc, if_true, Option.getD]
                exact List.mem_append_left _ (by simp)
              · have hmem' : key ∈ rest := by
                  rcases List.mem_cons.mp hmem with hx | hx
                  · exact absurd hx.symm hkk
                  · exact hx
                have := (ih hmem' false h ro hrest).2 hEc
                exact List.mem_append_right _ this
        · have hkk : ¬k = key := by
            intro hx
            rw [hx, hkeyBeq] at hk
            exact hk rfl
          have hmem' : key ∈ rest := by
            rcases List.mem_cons.mp hmem with hx | hx
            · exact absurd hx.symm hkk
            · exact hx
          rw [if_neg hk] at heq
          cases hks : keySpecRun keySpec k ctx h with
          | error e => rw [hks] at heq; simp [Bind.bind, Except.bind] at heq
          | ok ko =>
              rw [hks] at heq
              simp only [Bind.bind, Except.bind] at heq
              by_cases hko : ko.ok
              · simp only [hko, Bool.not_true, Bool.false_eq_true, if_false] at heq
                cases hv : spec (h.getSlot (a, .str k))
                    { ctx with p := some (computeKey ctx.p (.str k)),
                               coercion := some (a, .str k) } ko.h with
                | error e => rw [hv] at heq; simp [Bind.bind, Except.bind] at heq
                | ok vo =>
                    rw [hv] at heq
                    simp only [Bind.bind, Except.bind] at heq
                    cases hrest : recordLoop spec keySpec a ctx rest
                        (if vo.ok then valid else false) vo.h with
                    | error e => rw [hrest] at heq; simp [Bind.bind, Except.bind] at heq
                    | ok ro =>
                        rw [hrest] at heq
                        simp only [Bind.bind, Except.bind] at heq
                        cases heq
                        have hro := ih hmem' (if vo.ok then valid else false) vo.h ro hrest
                        exact ⟨hro.1, fun hEc =>
                          List.mem_append_right _ (hro.2 hEc)⟩
              · have hko' : ko.ok = false := by simpa using hko
                simp only [hko', Bool.not_false, if_true] at heq
                cases hrest : recordLoop spec keySpec a ctx rest false ko.h with
                | error e => rw [hrest] at heq; simp [Bind.bind, Except.bind] at heq
                | ok ro =>
                    rw [hrest] at heq
                    simp only [Bind.bind, Except.bind] at heq
                    cases heq
                    have hro := ih hmem' false ko.h ro hrest
                    exact ⟨hro.1, fun hEc =>
                      List.mem_append_right _ (hro.2 hEc)⟩

theorem objectLoop_ok_false (props : List (String × V)) (hasExtra : Bool) (a : Nat)
    (ctx : Ctx) :
    ∀ (keys : List String) (bag : List BagEntry) (h : Heap)
      (res : RunOut × List BagEntry),
      objectLoop props hasExtra a ctx keys false bag h = .ok res → res.1.ok = false := by
  intro keys
  induction keys with
  | nil =>
      intro bag h res heq
      simp only [objectLoop] at heq
      cases heq
      rfl
  | cons key rest ih =>
      intro bag h res heq
      simp only [objectLoop, Bool.not_false, Bool.true_and] at heq
      by_cases hE : ctx.errorsOn
      · rw [if_neg (by simp [hE])] at heq
        by_cases hk : (key == "constructor" || key == "__proto__") = true
        · rw [if_pos hk] at heq
          cases hrest : objectLoop props hasExtra a ctx rest false bag h with
          | error e => rw [hrest] at heq; simp [Bind.bind, Except.bind] at heq
          | ok ro =>
              rw [hrest] at heq
              simp only [Bind.bind, Except.bind] at heq
              cases heq
              exact ih bag h ro hrest
        · rw [if_neg hk] at heq
          cases hd : (props.find? (fun pr => pr.1 == key)).map Prod.snd with
          | some sp =>
              rw [hd] at heq
              simp only [Bind.bind, Except.bind] at heq
              cases hv : sp (if objHasOwn h a key then h.getSlot (a, .str key) else .undefined)
                  { ctx with p := some (computeKey ctx.p (.str key)),
                             coercion := some (a, .str key) } h with
              | error e => rw [hv] at heq; simp [Bind.bind, Except.bind] at heq
              | ok vo =>
                  rw [hv] at heq
                  simp only [Bind.bind, Except.bind, Bool.and_false] at heq
                  cases hrest : objectLoop props hasExtra a ctx rest false bag vo.h with
                  | error e => rw [hrest] at heq; simp [Bind.bind, Except.bind] at heq
                  | ok ro =>
                      rw [hrest] at heq
                      simp only [Bind.bind, Except.bind] at heq
                      cases heq
                      exact ih bag vo.h ro hrest
          | none =>
              rw [hd] at heq
              by_cases hx : hasExtra
              · rw [if_pos hx] at heq
                simp only [Bind.bind, Except.bind] at heq
                cases hrest : objectLoop props hasExtra a ctx rest false
                    (bag ++ [⟨key, if objHasOwn h a key then h.getSlot (a, .str key)
                      else .undefined, a, key⟩]) h with
                | error e => rw [hrest] at heq; simp [Bind.bind, Except.bind] at heq
                | ok ro =>
                    rw [hrest] at heq
                    simp only [Bind.bind, Except.bind] at heq
                    cases heq
                    exact ih _ h _ hrest
              · rw [if_neg hx] at heq
                simp only [Bind.bind, Except.bind] at heq
                cases hrest : objectLoop props hasExtra a ctx rest false bag h with
                | error e => rw [hrest] at heq; simp [Bind.bind, Except.bind] at heq
                | ok ro =>
                    rw [hrest] at heq
                    simp only [Bind.bind, Except.bind] at heq
                    cases heq
                    exact ih bag h ro hrest
      · have hE' : ctx.errorsOn = false := by simpa using hE
        rw [if_pos (by simp [hE'])] at heq
        cases heq
        rfl

theorem objectLoop_guardedKey (props : List (String × V)) (hasExtra : Bool) (a : Nat)
    (ctx : Ctx) (key : String) (hkey : key = "__proto__" ∨ key = "constructor") :
    ∀ (keys : List String), key ∈ keys →
      ∀ (valid : Bool) (bag : List BagEntry) (h : Heap) (res : RunOut × List BagEntry),
        objectLoop props hasExtra a ctx keys valid bag h = .ok res →
        res.1.ok = false ∧
        (ctx.errorsOn = true →
          (computeKey ctx.p (.str key) ++ ": " ++ "Unsafe property name") ∈ res.1.errs) := by
  have hkeyBeq : (key == "constructor" || key == "__proto__") = true := by
    rcases hkey with hk | hk <;> simp [hk]
  intro keys
  induction keys with
  | nil => intro hmem; simp at hmem
  | cons k rest ih =>
      intro hmem valid bag h res heq
      simp only [objectLoop] at heq
      by_cases hstop : (!valid && !ctx.errorsOn) = true
      · rw [if_pos hstop] at heq
        cases heq
        have hval : valid = false := by
          cases hv : valid
          · rfl
          · rw [hv] at hstop; simp at hstop
        have hEoff : ctx.errorsOn = false := by
          cases hEc : ctx.errorsOn
          · rfl
          · rw [hEc] at hstop; simp at hstop
        exact ⟨hval, by intro hEc; rw [hEc] at hEoff; cases hEoff⟩
      · rw [if_neg hstop] at heq
        by_cases hk : (k == "constructor" || k == "__proto__") = true
        · rw [if_pos hk] at heq
          cases hrest : objectLoop props hasExtra a ctx rest false bag h with
          | error e => rw [hrest] at heq; simp [Bind.bind, Except.bind] at heq
          | ok ro =>
              rw [hrest] at heq
              simp only [Bind.bind, Except.bind] at heq
              cases heq
              refine ⟨objectLoop_ok_false props hasExtra a ctx rest bag h ro hrest, ?_⟩
              intro hEc
              by_cases hkk : k = key
              · subst hkk
                simp only [pushError, hEc, if_true, Option.getD]
                exact List.mem_append_left _ (by simp)
              · have hmem' : key ∈ rest := by
                  rcases List.mem_cons.mp hmem with hx | hx
                  · exact absurd hx.symm hkk
                  · exact hx
                have := (ih hmem' false bag h ro hrest).2 hEc
                exact List.mem_append_right _ this
        · have hkk : ¬k = key := by
            intro hx
            rw [hx, hkeyBeq] at hk
            exact hk rfl
          have hmem' : key ∈ rest := by
            rcases List.mem_cons.mp hmem with hx | hx
            · exact absurd hx.symm hkk
            · exact hx
          rw [if_neg hk] at heq
          cases hd : (props.find? (fun pr => pr.1 == k)).map Prod.snd with
          | some sp =>
              rw [hd] at heq
              simp only [Bind.bind, Except.bind] at heq
              cases hv : sp (if objHasOwn h a k then h.getSlot (a, .str k) else .undefined)
                  { ctx with p := some (computeKey ctx.p (.str k)),
                             coercion := some (a, .str k) } h with
              | error e => rw [hv] at heq; simp [Bind.bind, Except.bind] at heq
              | ok vo =>
                  rw [hv] at heq
                  simp only [Bind.bind, Except.bind] at heq
                  cases hrest : objectLoop props hasExtra a ctx rest (vo.ok && valid) bag vo.h with
                  | error e => rw [hrest] at heq; simp [Bind.bind, Except.bind] at heq
                  | ok ro =>
                      rw [hrest] at heq
                      simp only [Bind.bind, Except.bind] at heq
                      cases heq
                      have hro := ih hmem' (vo.ok && valid) bag vo.h ro hrest
                      exact ⟨hro.1, fun hEc => List.mem_append_right _ (hro.2 hEc)⟩
          | none =>
              rw [hd] at heq
              by_cases hx : hasExtra
              · rw [if_pos hx] at heq
                simp only [Bind.bind, Except.bind] at heq
                cases hrest : objectLoop props hasExtra a ctx rest valid
                    (bag ++ [⟨k, if objHasOwn h a k then h.getSlot (a, .str k)
                      else .undefined, a, k⟩]) h with
                | error e => rw [hrest] at heq; simp [Bind.bind, Except.bind] at heq
                | ok ro =>
                    rw [hrest] at heq
                    simp only [Bind.bind, Except.bind] at heq
                    cases heq
                    exact ih hmem' valid _ h _ hrest
              · rw [if_neg hx] at heq
                simp only [Bind.bind, Except.bind] at heq
                cases hrest : objectLoop props hasExtra a ctx rest false bag h with
                | error e => rw [hrest] at heq; simp [Bind.bind, Except.bind] at heq
                | ok ro =>
                    rw [hrest] at heq
                    simp only [Bind.bind, Except.bind] at heq
                    cases heq
                    have hro := ih hmem' false bag h ro hrest
                    exact ⟨hro.1, fun hEc => List.mem_append_right _ (hro.2 hEc)⟩

theorem mem_foldl_dedup (x : String) :
    ∀ (l acc : List String),
      (x ∈ l.foldl (fun acc k => if acc.contains k then acc else acc ++ [k]) acc) ↔
      (x ∈ acc ∨ x ∈ l) := by
  intro l
  induction l with
  | nil => intro acc; simp
  | cons k rest ih =>
      intro acc
      simp only [List.foldl_cons]
      by_cases hc : acc.contains k
      · rw [if_pos hc]
        rw [ih acc]
        have hck : k ∈ acc := by simpa using hc
        constructor
        · rintro (hx | hx)
          · exact Or.inl hx
          · exact Or.inr (List.mem_cons_of_mem _ hx)
        · rintro (hx | hx)
          · exact Or.inl hx
          · rcases List.mem_cons.mp hx with rfl | hx
            · exact Or.inl hck
            · exact Or.inr hx
      · rw [if_neg hc]
        rw [ih (acc ++ [k])]
        simp only [List.mem_append, List.mem_singleton, List.mem_cons]
        tauto

theorem mem_dedupFirst (l : List String) (x : String) : x ∈ dedupFirst l ↔ x ∈ l := by
  unfold dedupFirst
  rw [mem_foldl_dedup x l []]
  simp

/-- Claim C2 (amended): for plain non-array object inputs, both `isRecord`
and `isObject` refuse any own key named `__proto__` or `constructor`: the
validator cannot return `true`, and with error collection enabled the
dedicated "Unsafe property name" message is reported at that key's path —
independent of coercion mode.  (The array-of-pairs coercion path of
`isRecord` is the exception; see the counterexample.) -/
theorem proto_constructor_guard :
    (∀ (spec : V) (keySpec : Option V) (ctx : Ctx) (h : Heap) (a : Nat)
        (fs : List (String × Value)) (key : String),
      h.find a = some (.plain fs) →
      (key = "__proto__" ∨ key = "constructor") →
      key ∈ fs.map Prod.fst →
      ∀ out, isRecord spec keySpec (.ref a) ctx h = .ok out →
        out.ok = false ∧
        (ctx.errorsOn = true →
          (computeKey ctx.p (.str key) ++ ": " ++ "Unsafe property name") ∈ out.errs)) ∧
    (∀ (props : List (String × V)) (extraSpec : Option V) (ctx : Ctx) (h : Heap)
        (a : Nat) (fs : List (String × Value)) (key : String),
      h.find a = some (.plain fs) →
      (key = "__proto__" ∨ key = "constructor") →
      key ∈ fs.map Prod.fst →
      ∀ out, isObject props extraSpec (.ref a) ctx h = .ok out →
        out.ok = false ∧
        (ctx.errorsOn = true →
          (computeKey ctx.p (.str key) ++ ": " ++ "Unsafe property name") ∈ out.errs)) := by
  constructor
  · intro spec keySpec ctx h a fs key hfind hkey hmem out heq
    simp only [isRecord, findArr, hfind, recordObjectPath, objKeys, Bind.bind,
      Except.bind] at heq
    cases hloop : recordLoop spec keySpec a ctx (fs.map Prod.fst) true h with
    | error e => rw [hloop] at heq; simp at heq
    | ok ro =>
        rw [hloop] at heq
        simp only [] at heq
        cases heq
        exact recordLoop_guardedKey spec keySpec a ctx key hkey (fs.map Prod.fst) hmem
          true h _ hloop
  · intro props extraSpec ctx h a fs key hfind hkey hmem out heq
    have hmem' : key ∈ dedupFirst (props.map Prod.fst ++ objKeys h a) := by
      rw [mem_dedupFirst]
      refine List.mem_append_right _ ?_
      simp only [objKeys, hfind]
      exact hmem
    cases extraSpec with
    | none =>
        simp only [isObject, Bind.bind, Except.bind] at heq
        cases hloop : objectLoop props false a ctx
            (dedupFirst (props.map Prod.fst ++ objKeys h a)) true [] h with
        | error e => rw [hloop] at heq; simp at heq
        | ok lp =>
            rw [hloop] at heq
            simp only [] at heq
            cases heq
            exact objectLoop_guardedKey props false a ctx key hkey _ hmem' true [] h _ hloop
    | some es =>
        simp only [isObject, Bind.bind, Except.bind] at heq
        cases hloop : objectLoop props true a ctx
            (dedupFirst (props.map Prod.fst ++ objKeys h a)) true [] h with
        | error e => rw [hloop] at heq; simp at heq
        | ok lp =>
            rw [hloop] at heq
            simp only [] at heq
            have hlp := objectLoop_guardedKey props true a ctx key hkey _ hmem' true [] h lp hloop
            by_cases hcond : (lp.1.ok || ctx.errorsOn) = true
            · rw [if_pos hcond] at heq
              cases hes : es (.ref (lp.1.h.alloc (.proxyBag lp.2)).1) ctx
                  (lp.1.h.alloc (.proxyBag lp.2)).2 with
              | error e => rw [hes] at heq; simp [Bind.bind, Except.bind] at heq
              | ok eo =>
                  rw [hes] at heq
                  simp only [Bind.bind, Except.bind] at heq
                  cases heq
                  refine ⟨by simp [hlp.1], ?_⟩
                  intro hEc
                  exact List.mem_append_left _ (hlp.2 hEc)
            · rw [if_neg hcond] at heq
              cases heq
              exact hlp

/-- Witness for C2 on concrete inputs with both unsafe key names. -/
theorem proto_constructor_guard_witness :
    (∃ out, isRecord isString none (.ref 0) ⟨none, none, true, false⟩
        ⟨[(0, .plain [("__proto__", .str "x")])], 1⟩ = .ok out ∧
      out.ok = false ∧ ".__proto__: Unsafe property name" ∈ out.errs) ∧
    (∃ out, isObject [] none (.ref 0) ⟨none, none, true, false⟩
        ⟨[(0, .plain [("constructor", .str "x")])], 1⟩ = .ok out ∧
      out.ok = false ∧ ".constructor: Unsafe property name" ∈ out.errs) := by
  constructor
  · have H := proto_constructor_guard.1 isString none ⟨none, none, true, false⟩
      ⟨[(0, .plain [("__proto__", .str "x")])], 1⟩ 0 [("__proto__", .str "x")]
      "__proto__" rfl (Or.inl rfl) (by simp)
      ⟨false, [".__proto__: Unsafe property name"], [],
        ⟨[(0, .plain [("__proto__", .str "x")])], 1⟩⟩ rfl
    exact ⟨_, rfl, H.1, H.2 rfl⟩
  · have H := proto_constructor_guard.2 [] none ⟨none, none, true, false⟩
      ⟨[(0, .plain [("constructor", .str "x")])], 1⟩ 0 [("constructor", .str "x")]
      "constructor" rfl (Or.inr rfl) (by simp)
      ⟨false, [".constructor: Unsafe property name"], [],
        ⟨[(0, .plain [("constructor", .str "x")])], 1⟩⟩ rfl
    exact ⟨_, rfl, H.1, H.2 rfl⟩

/-- Claim C1 (amended): when the lead spec succeeds in coercion mode (with
the parent binder bound), `cascade` pushes the proposed coercions — the
parent-slot rebinding when the scratch value changed, followed by the lead's
sub-coercions — onto the parent coercion list *before* running the
followups: the pushed entries appear in the output regardless of the
followups' outcome, whose own result and pushes merely follow them, and the
overall boolean is the followups' verdict. -/
theorem cascade_coercions_precede_followups
    (spec : V) (followups : List V) (value : Value) (ctx : Ctx) (h : Heap)
    (c : Slot) (sOut fOut : RunOut)
    (hcoOn : ctx.coercionsOn = true)
    (hc : ctx.coercion = some c)
    (hspec : spec value { ctx with coercion := some (h.next, .str "value") }
        (h.alloc (.plain [("value", value)])).2 = .ok sOut)
    (hok : sOut.ok = true)
    (hf : followupsRun h.next ctx followups (applyAll sOut.cos sOut.h).2 = .ok fOut) :
    cascade spec followups value ctx h =
      .ok ⟨fOut.ok, sOut.errs ++ fOut.errs,
           (if jsStrictEq ((applyAll sOut.cos sOut.h).2.getSlot (h.next, .str "value")) value
            then sOut.cos
            else (ctx.p.getD ".", .bound c
              ((applyAll sOut.cos sOut.h).2.getSlot (h.next, .str "value"))) :: sOut.cos)
           ++ fOut.cos,
           (applyAllB (applyAll sOut.cos sOut.h).1 fOut.h).2⟩ := by
  unfold cascade
  simp only [Heap.alloc, hcoOn] at hspec ⊢
  simp only [if_true]
  rw [hspec]
  simp only [Bind.bind, Except.bind, hok, Bool.not_true, Bool.false_eq_true, if_false]
  cases hb : jsStrictEq
      ((applyAll sOut.cos sOut.h).2.getSlot (h.next, .str "value")) value with
  | true =>
      simp only [hb, Bool.not_true, Bool.and_false, hc, hf, Bind.bind, Except.bind,
        if_pos]
  | false =>
      simp only [hb, Bool.not_false, Bool.and_true, hc, hf, Bind.bind, Except.bind,
        Bool.false_eq_true, if_false, List.cons_append, List.singleton_append,
        List.nil_append]

/-- Witness for C1: the concrete cascade of the counterexample, derived
through the characterisation theorem. -/
theorem cascade_coercions_precede_followups_witness :
    cascade isBoolean [isLiteral (.bool false)] (.str "true")
        ⟨none, some (0, .str "v"), true, true⟩
        ⟨[(0, .plain [("v", .str "true")])], 1⟩ =
      .ok ⟨false, [".: Expected false (got true)"],
           [(".", .bound (0, .str "v") (.bool true)),
            (".", .bound (1, .str "value") (.bool true))],
           ⟨[(0, .plain [("v", .str "true")]), (1, .plain [("value", .str "true")])], 2⟩⟩ := by
  exact cascade_coercions_precede_followups isBoolean [isLiteral (.bool false)]
    (.str "true") ⟨none, some (0, .str "v"), true, true⟩
    ⟨[(0, .plain [("v", .str "true")])], 1⟩ (0, .str "v")
    ⟨true, [], [(".", .bound (1, .str "value") (.bool true))],
      ⟨[(0, .plain [("v", .str "true")]), (1, .plain [("value", .str "true")])], 2⟩⟩
    ⟨false, [".: Expected false (got true)"], [],
      ⟨[(0, .plain [("v", .str "true")]), (1, .plain [("value", .bool true)])], 2⟩⟩
    rfl rfl rfl rfl rfl

theorem branchRuns_length (value : Value) (ctx : Ctx) :
    ∀ (specs : List V) (t : Nat) (h : Heap) (outs : List RunOut),
      branchRuns value ctx specs t h = .ok outs → outs.length = specs.length := by
  intro specs
  induction specs with
  | nil =>
      intro t h outs heq
      simp only [branchRuns] at heq
      cases heq
      rfl
  | cons spec rest ih =>
      intro t h outs heq
      simp only [branchRuns] at heq
      cases hs : spec value { ctx with p := some (ctx.p.getD "." ++ "#" ++ toString t) } h with
      | error e => rw [hs] at heq; simp [Bind.bind, Except.bind] at heq
      | ok o =>
          rw [hs] at heq
          simp only [Bind.bind, Except.bind] at heq
          cases hr : branchRuns value ctx rest (t + 1) o.h with
          | error e => rw [hr] at heq; simp at heq
          | ok os =>
              rw [hr] at heq
              simp only [] at heq
              cases heq
              simp [ih (t + 1) o.h os hr]

theorem matchesOf_length (coOn : Bool) :
    ∀ (outs : List RunOut) (t : Nat),
      (matchesOf coOn t outs).length = outs.countP (fun o => o.ok) := by
  intro outs
  induction outs with
  | nil => intro t; simp [matchesOf]
  | cons o rest ih =>
      intro t
      simp only [matchesOf, List.length_append, List.countP_cons, ih (t + 1)]
      by_cases ho : o.ok
      · simp [ho]
        omega
      · have ho' : o.ok = false := by simpa using ho
        simp [ho']

theorem oneOfLoop_exclusive_eq (value : Value) (ctx : Ctx) :
    ∀ (specs : List V) (t : Nat) (h : Heap) (outs : List RunOut),
      branchRuns value ctx specs t h = .ok outs →
      oneOfLoop true value ctx specs t h =
        .ok (matchesOf ctx.coercionsOn t outs, bufOf ctx.errorsOn outs, lastHeap h outs) := by
  intro specs
  induction specs with
  | nil =>
      intro t h outs heq
      simp only [branchRuns] at heq
      cases heq
      simp [oneOfLoop, matchesOf, bufOf, lastHeap]
  | cons spec rest ih =>
      intro t h outs heq
      simp only [branchRuns] at heq
      cases hs : spec value { ctx with p := some (ctx.p.getD "." ++ "#" ++ toString t) } h with
      | error e => rw [hs] at heq; simp [Bind.bind, Except.bind] at heq
      | ok o =>
          rw [hs] at heq
          simp only [Bind.bind, Except.bind] at heq
          cases hr : branchRuns value ctx rest (t + 1) o.h with
          | error e => rw [hr] at heq; simp at heq
          | ok os =>
              rw [hr] at heq
              simp only [] at heq
              cases heq
              simp only [oneOfLoop, hs, Bind.bind, Except.bind]
              by_cases ho : o.ok
              · simp only [ho, if_true, Bool.not_true, Bool.false_eq_true, if_false,
                  ih (t + 1) o.h os hr]
                simp [matchesOf, bufOf, lastHeap, ho]
              · have ho' : o.ok = false := by simpa using ho
                simp only [ho', Bool.false_eq_true, if_false,
                  ih (t + 1) o.h os hr]
                simp [matchesOf, bufOf, lastHeap, ho']

/-- Claim C6: with `exclusive: true`, `isOneOf` evaluates every branch (the
branch-outcome list `outs` covers all of `specs`, each branch running with
its `#index`-suffixed path and fresh sub-sinks) and accepts exactly when a
single branch matched; with more than one match it fails with the
"Expected to match exactly a single predicate" error, with zero matches it
reports the first error of each failing branch, and with exactly one match
it commits exactly that branch's proposed coercions. -/
theorem isOneOf_exclusive_exactly_one
    (specs : List V) (value : Value) (ctx : Ctx) (h : Heap) (outs : List RunOut)
    (hruns : branchRuns value ctx specs 1 h = .ok outs) :
    outs.length = specs.length ∧
    (∃ out, isOneOf specs true value ctx h = .ok out) ∧
    (∀ out, isOneOf specs true value ctx h = .ok out →
      (out.ok = true ↔ outs.countP (fun o => o.ok) = 1) ∧
      (outs.countP (fun o => o.ok) = 0 →
        out.errs = bufOf ctx.errorsOn outs ∧ out.cos = []) ∧
      (outs.countP (fun o => o.ok) > 1 →
        out.errs = (pushError ctx
          ("Expected to match exactly a single predicate (matched " ++
           renderMatches (matchesOf ctx.coercionsOn 1 outs) ++ ")")
          (lastHeap h outs)).errs ∧
        out.cos = []) ∧
      (outs.countP (fun o => o.ok) = 1 →
        out.errs = [] ∧
        out.cos = ((matchesOf ctx.coercionsOn 1 outs).headD ("", none)).2.getD []) ∧
      out.h = lastHeap h outs) := by
  have hloop := oneOfLoop_exclusive_eq value ctx specs 1 h outs hruns
  have hlen := matchesOf_length ctx.coercionsOn outs 1
  refine ⟨branchRuns_length value ctx specs 1 h outs hruns, ?_, ?_⟩
  · cases hms : matchesOf ctx.coercionsOn 1 outs with
    | nil =>
        refine ⟨⟨false, bufOf ctx.errorsOn outs, [], lastHeap h outs⟩, ?_⟩
        simp [isOneOf, hloop, hms, Bind.bind, Except.bind]
    | cons m ms' =>
        cases ms' with
        | nil =>
            refine ⟨⟨true, [], m.2.getD [], lastHeap h outs⟩, ?_⟩
            simp [isOneOf, hloop, hms, Bind.bind, Except.bind]
        | cons m2 ms'' =>
            refine ⟨pushError ctx
              ("Expected to match exactly a single predicate (matched " ++
               renderMatches (m :: m2 :: ms'') ++ ")") (lastHeap h outs), ?_⟩
            simp only [isOneOf, hloop, hms, Bind.bind, Except.bind]
            rw [if_pos (by simp only [List.length_cons]; omega)]
  · intro out heq
    simp only [isOneOf, hloop, Bind.bind, Except.bind] at heq
    cases hms : matchesOf ctx.coercionsOn 1 outs with
    | nil =>
        have hcount : List.countP (fun o => o.ok) outs = 0 := by
          rw [hms] at hlen
          simpa using hlen.symm
        rw [hms] at heq
        simp only [] at heq
        rw [if_neg (by simp)] at heq
        cases heq
        exact ⟨by simp [hcount], fun _ => ⟨rfl, rfl⟩,
          fun hgt => absurd hgt (by omega), fun hone => absurd hone (by omega), rfl⟩
    | cons m ms' =>
        cases ms' with
        | nil =>
            have hcount : List.countP (fun o => o.ok) outs = 1 := by
              rw [hms] at hlen
              simpa using hlen.symm
            rw [hms] at heq
            simp only [] at heq
            cases heq
            exact ⟨by simp [hcount], fun hz => absurd hz (by omega),
              fun hgt => absurd hgt (by omega), fun _ => ⟨rfl, rfl⟩, rfl⟩
        | cons m2 ms'' =>
            have hcount : List.countP (fun o => o.ok) outs = ms''.length + 2 := by
              rw [hms] at hlen
              simp only [List.length_cons] at hlen
              omega
            rw [hms] at heq
            simp only [] at heq
            rw [if_pos (by simp only [List.length_cons]; omega)] at heq
            cases heq
            exact ⟨by simp [hcount, pushError], fun hz => absurd hz (by omega),
              fun _ => ⟨rfl, rfl⟩, fun hone => absurd hone (by omega), rfl⟩

/-- Witness for C6: of the two branches `isString` and `isBoolean` on the
string input exactly one matches, so the exclusive union accepts. -/
theorem isOneOf_exclusive_exactly_one_witness :
    ∃ out, isOneOf [isString, isBoolean] true (.str "x")
        ⟨none, none, true, false⟩ ⟨[], 0⟩ = .ok out ∧ out.ok = true := by
  have H := isOneOf_exclusive_exactly_one [isString, isBoolean] (.str "x")
    ⟨none, none, true, false⟩ ⟨[], 0⟩
    [⟨true, [], [], ⟨[], 0⟩⟩,
     ⟨false, [".#2: Expected a boolean (got \"x\")"], [], ⟨[], 0⟩⟩]
    rfl
  obtain ⟨out, hout⟩ := H.2.1
  exact ⟨out, hout, ((H.2.2 out hout).1).mpr (by decide)⟩

end Typanion
